import Mathlib

/-!
# PataterSynth: oscillator, quantizer and WAV writer

A shallow embedding of `src/oscillator.c` and of the writer functions of
`examples/wavgen/wavgen.c`.  The C `double` is idealised as an
element of an arbitrary linearly ordered field with a floor function
(`ℚ` for evaluation, `ℝ` for the statements about `π` and `sin`), so every
definition below is computable.  The file-scope variables of `oscillator.c`
(`mode`, `fundamental`, `phase`, `phase_step`, `prev`) become the fields of an
explicit state record that every function receives and returns.

Where the stored integer depends on the rounding of `double` operations, the
quantizer and the square sample are embedded a second time, in the namespace
`Binary64`, with every operation rounded to the nearest `binary64` value.
-/

namespace PataterSynth

section Embedding

variable {α : Type} [LinearOrderedField α] [FloorRing α]

/-! ## C conversions -/

/-- Conversion of a floating value to an integer type discards the fractional
part (truncation toward zero). -/
def trunc (f : α) : Int :=
  if 0 ≤ f then ⌊f⌋ else ⌈f⌉

/-- The cast `(size_t)f` with a 64-bit `size_t`: truncation, kept modulo `2^64`.
C defines the cast only for `-1 < f < 2^64`; `Binary64.to_size_t` is the
partial version. -/
def to_size_t (f : α) : Int :=
  trunc f % 2 ^ 64

/-- Subtraction in `size_t` arithmetic (`u - 32768` with `u` a `size_t`). -/
def size_t_sub (u v : Int) : Int :=
  (u - v) % 2 ^ 64

/-- The cast `(short)n`: reduction modulo `2^16` into `[-32768, 32767]`. -/
def to_short (n : Int) : Int :=
  (n + 32768) % 65536 - 32768

/-! ## Quantizer (`oscillator.c` lines 90-111 and 156-163) -/

/-- Embedding of `float_to_int_round` with exact arithmetic;
`Binary64.float_to_int_round` is the version with rounded operations. -/
def float_to_int_round (f : α) : Int :=
  let f := f + 1.0
  let f := f * 32767.5
  let f := f + 0.5
  let u := to_size_t f
  let s := to_short (size_t_sub u 32768)
  s

/-- Embedding of `crand_dither` (lines 113-154).  The value of
`(double)rand() / (RAND_MAX + 1)` is the parameter `fake_uniform_rand`; the
`int` sum in the `return` is converted to the `short` result. -/
def crand_dither (fake_uniform_rand : α) (f : α) : Int :=
  let whole : α := (⌊f⌋ : α)
  let fraction := f - whole
  let f := f + 1.0
  let f := f * 32767.5
  let s := to_short (trunc (f - 32768.0))
  to_short (s + (if fake_uniform_rand < fraction then 1 else 0))

/-- Embedding of `float_to_int` with `SHOULD_DITHER` off (the branch that
compiles: no function `dither` exists). -/
def float_to_int (f : α) : Int :=
  float_to_int_round f

/-! ## Oscillator state and the constants it is compiled against -/

/-- The `enum OscillatorMode` of `oscillator.h`. -/
inductive OscillatorMode where
  | OM_SINE
  | OM_SQUARE
  | OM_TRIANGLE
  | OM_SAW
  deriving DecidableEq, Repr

/-- What `<math.h>` supplies: the constant `M_PI` (positive) and `sin`. -/
structure Libm (α : Type) [LinearOrderedField α] where
  M_PI : α
  M_PI_pos : 0 < M_PI
  sin : α → α

/-- The constant `static const double M_2PI = 2.0 * M_PI`. -/
def Libm.M_2PI (m : Libm α) : α :=
  2.0 * m.M_PI

/-- The file-scope variables of `oscillator.c`. -/
structure State (α : Type) where
  mode : OscillatorMode
  fundamental : α
  phase : α
  phase_step : α
  prev : α

/-- The variables as the C runtime leaves them before `init_oscillator`:
`phase = 0`, `prev = 0`, everything else zero-initialised. -/
def startup : State α :=
  { mode := OscillatorMode.OM_SINE, fundamental := 0, phase := 0, phase_step := 0, prev := 0 }

/-- The constant `polyblep_mode` (1: use polyblep bandlimiting). -/
def polyblep_mode : Int := 1

/-- Embedding of `init_oscillator`; `samples_per_sec` comes from `psynth/psynth.h`
and is taken as a parameter. -/
def init_oscillator (m : Libm α) (samples_per_sec : Nat) (st : State α) : State α :=
  let st := { st with fundamental := 2637.0 }
  let st := { st with fundamental := 440.0 }
  { st with phase_step := st.fundamental * m.M_2PI / (samples_per_sec : α) }

/-! ## PolyBLEP kernels (`oscillator.c` lines 50-88) -/

/-- Embedding of `polyblep_narrow`; it reads the variable `phase_step`. -/
def polyblep_narrow (m : Libm α) (st : State α) (t : α) : α :=
  let dt := st.phase_step / m.M_2PI
  if t < dt then
    let t := t / dt
    t + t - t * t - 1.0
  else if t > 1.0 - dt then
    let t := (t - 1.0) / dt
    t * t + t + t + 1.0
  else
    0.0

/-- Embedding of `polyblep` (the wide kernel). -/
def polyblep (m : Libm α) (st : State α) (t : α) : α :=
  let dt := st.phase_step / m.M_2PI
  if t ≤ dt then
    let t := t / dt
    t - t * t * 0.5 - 0.5
  else if t > 1.0 - dt then
    let t := (t - 1.0) / dt
    t * t * 0.5 + t + 0.5
  else
    0.0

/-- The kernel as the specification words it (section 4.2), with `dt` explicit. -/
def polyblep_narrow_spec (dt t : α) : α :=
  if 0 ≤ t ∧ t < dt then
    2 * (t / dt) - (t / dt) ^ 2 - 1
  else if t > 1 - dt then
    ((t - 1) / dt) ^ 2 + 2 * ((t - 1) / dt) + 1
  else
    0

/-! ## Phase accumulator -/

/-- The library function `fmod x y`: `x` minus `y` times the quotient `x / y`
truncated toward zero. -/
def fmod (x y : α) : α :=
  x - (trunc (x / y) : α) * y

/-- Number of whole turns contained in `phase`: the variant of the wrap loop. -/
def turns (m : Libm α) (phase : α) : Nat :=
  ⌊phase / m.M_2PI⌋.toNat

/-- The loop `while (phase >= M_2PI) phase -= M_2PI;`. -/
def wrap_phase {β : Type} [LinearOrderedField β] [FloorRing β] (m : Libm β) (phase : β) : β :=
  if phase ≥ m.M_2PI then wrap_phase m (phase - m.M_2PI) else phase
termination_by turns m phase
decreasing_by
  rename_i h
  unfold turns
  have hpos : (0 : β) < m.M_2PI := by
    unfold Libm.M_2PI
    have := m.M_PI_pos
    norm_num
    exact this
  have h1 : (1 : β) ≤ phase / m.M_2PI := by
    rw [le_div_iff₀ hpos]
    simpa using h
  have h2 : (phase - m.M_2PI) / m.M_2PI = phase / m.M_2PI - 1 := by
    field_simp
  have h3 : (1 : Int) ≤ ⌊phase / m.M_2PI⌋ := by
    rw [Int.le_floor]
    exact_mod_cast h1
  rw [h2, Int.floor_sub_one]
  omega

/-- The end of every generator iteration: `phase += phase_step;` followed by the
wrap loop. -/
def advance_phase (m : Libm α) (st : State α) : State α :=
  let st := { st with phase := st.phase + st.phase_step }
  { st with phase := wrap_phase m st.phase }

/-! ## Generators (`oscillator.c` lines 165-277)

Each generator returns the samples it stored through `*buffer++`, in order,
together with the variables it leaves behind. -/

/-- The `double sample` of one `generate_sine` iteration. -/
def sine_sample (m : Libm α) (st : State α) : α :=
  m.sin st.phase

/-- The `double sample` of one `generate_square` iteration with exact
arithmetic; `Binary64.square_sample` is the version with rounded operations. -/
def square_sample (m : Libm α) (st : State α) : α :=
  let t := st.phase / m.M_2PI
  let sample : α := if st.phase < m.M_PI then 1.0 else -1.0
  if polyblep_mode ≠ 0 then
    let sample := sample + polyblep_narrow m st t
    let sample := sample - polyblep_narrow m st (fmod (t + 0.5) 1.0)
    sample
  else
    sample

/-- The `double sample` of one `generate_saw` iteration. -/
def saw_sample (m : Libm α) (st : State α) : α :=
  let t := st.phase / m.M_2PI
  let sample : α := (st.phase / m.M_PI) - 1.0
  if polyblep_mode ≠ 0 then
    sample - polyblep_narrow m st t
  else
    sample

/-- One `generate_triangle` iteration up to the quantizer call: the
`double sample` and the value of `prev` afterwards. -/
def triangle_sample (m : Libm α) (st : State α) : α × α :=
  let t := st.phase / m.M_2PI
  if polyblep_mode ≠ 0 then
    let sample : α := if st.phase < m.M_PI then 1.0 else -1.0
    let sample := sample + polyblep_narrow m st t
    let sample := sample - polyblep_narrow m st (fmod (t + 0.5) 1.0)
    let sample := st.phase_step * sample + (1 - st.phase_step) * st.prev
    (sample, sample)
  else
    let sample : α := -1.0 + (st.phase / m.M_PI)
    let sample := 2.0 * (|sample| - 0.5)
    (sample, st.prev)

/-- Embedding of `generate_sine` (its local `count` is never read and is left
out). -/
def generate_sine (m : Libm α) (st : State α) : Nat → List Int × State α
  | 0 => ([], st)
  | num_samples + 1 =>
    let sample := sine_sample m st
    let s := float_to_int sample
    let st := advance_phase m st
    let rest := generate_sine m st num_samples
    (s :: rest.1, rest.2)

/-- Embedding of `generate_square`. -/
def generate_square (m : Libm α) (st : State α) : Nat → List Int × State α
  | 0 => ([], st)
  | num_samples + 1 =>
    let sample := square_sample m st
    let s := float_to_int sample
    let st := advance_phase m st
    let rest := generate_square m st num_samples
    (s :: rest.1, rest.2)

/-- Embedding of `generate_saw`. -/
def generate_saw (m : Libm α) (st : State α) : Nat → List Int × State α
  | 0 => ([], st)
  | num_samples + 1 =>
    let sample := saw_sample m st
    let s := float_to_int sample
    let st := advance_phase m st
    let rest := generate_saw m st num_samples
    (s :: rest.1, rest.2)

/-- Embedding of `generate_triangle`. -/
def generate_triangle (m : Libm α) (st : State α) : Nat → List Int × State α
  | 0 => ([], st)
  | num_samples + 1 =>
    let r := triangle_sample m st
    let s := float_to_int r.1
    let st := { st with prev := r.2 }
    let st := advance_phase m st
    let rest := generate_triangle m st num_samples
    (s :: rest.1, rest.2)

/-! ## WAV writer (`examples/wavgen/wavgen.c`)

Bytes are natural numbers below 256.  A pointer argument together with its
element count is a list; the `malloc`ed `buffer` is a map from index to byte
whose capacity `BUFFER_SIZE` is checked at every `memcpy`. -/

/-- The constant `BUFFER_SIZE`. -/
def BUFFER_SIZE : Nat := 256 * 1024

/-- The stream `FILE *f`: the bytes of the file and the position of the next
write. -/
structure FILE where
  bytes : List Nat
  pos : Nat

/-- The stream returned by `fopen("out.wav", "wb")`: an empty file. -/
def fopen_wb : FILE :=
  { bytes := [], pos := 0 }

/-- The call `fwrite(ptr, size, 1, f)` for the `size` bytes `data`: they replace
the bytes from `pos` on (zero-filling a gap, extending the file) and `pos`
moves past them. -/
def fwrite (data : List Nat) (f : FILE) : FILE :=
  { bytes := f.bytes.take f.pos ++ List.replicate (f.pos - f.bytes.length) 0 ++ data ++
      f.bytes.drop (f.pos + data.length),
    pos := f.pos + data.length }

/-- The call `fseek(f, 0, SEEK_SET)`. -/
def fseek_set (f : FILE) (offset : Nat) : FILE :=
  { f with pos := offset }

/-- The file-scope variables of `wavgen.c`. -/
structure Writer where
  buffer : Nat → Nat
  buffer_i : Nat
  num_sample_bytes_written : Nat

/-- How a call can end without returning. -/
inductive Fault where
  | exit (status : Nat)
  | out_of_bounds
  deriving DecidableEq, Repr

/-- The call `memcpy(dest + i, b, num_bytes)` on the index map of `dest`. -/
def memcpy (dest : Nat → Nat) (i : Nat) (b : List Nat) : Nat → Nat :=
  fun j => if i ≤ j ∧ j < i + b.length then b.getD (j - i) 0 else dest j

/-- Embedding of `flush`: `fwrite(buffer, buffer_i, 1, f)`, then `buffer_i = 0`. -/
def flush (f : FILE) (g : Writer) : FILE × Writer :=
  let f := fwrite ((List.range g.buffer_i).map g.buffer) f
  (f, { g with buffer_i := 0 })

/-- Embedding of `write`; `b` holds the `num_bytes` bytes to append. -/
def write (f : FILE) (b : List Nat) (g : Writer) : Except Fault (FILE × Writer) :=
  let num_bytes := b.length
  if num_bytes ≥ BUFFER_SIZE then
    Except.error (Fault.exit 1)
  else
    let fg := if (g.buffer_i + num_bytes) % 2 ^ 64 ≥ BUFFER_SIZE then flush f g else (f, g)
    let f := fg.1
    let g := fg.2
    if g.buffer_i + num_bytes ≤ BUFFER_SIZE then
      let g := { g with buffer := memcpy g.buffer g.buffer_i b }
      let g := { g with buffer_i := (g.buffer_i + num_bytes) % 2 ^ 64 }
      Except.ok (f, g)
    else
      Except.error Fault.out_of_bounds

/-- The two bytes of an `int16_t` in memory (little endian). -/
def int16_bytes (x : Int) : List Nat :=
  [(x % 65536 % 256).toNat, (x % 65536 / 256).toNat]

/-- The bytes of an `int16_t` array in memory. -/
def sample_bytes : List Int → List Nat
  | [] => []
  | x :: xs => int16_bytes x ++ sample_bytes xs

/-- Embedding of `write_samples`; `s` holds the `num_samples` samples. -/
def write_samples (f : FILE) (s : List Int) (g : Writer) : Except Fault (FILE × Writer) :=
  let num_bytes := s.length * 2 % 2 ^ 64
  match write f ((sample_bytes s).take num_bytes) g with
  | Except.error e => Except.error e
  | Except.ok (f, g) =>
    Except.ok (f, { g with
      num_sample_bytes_written := (g.num_sample_bytes_written + num_bytes) % 2 ^ 64 })

/-- Consecutive `write_samples` calls, one per block, as `main` issues them. -/
def write_samples_seq (f : FILE) (g : Writer) : List (List Int) → Except Fault (FILE × Writer)
  | [] => Except.ok (f, g)
  | s :: rest =>
    match write_samples f s g with
    | Except.error e => Except.error e
    | Except.ok (f, g) => write_samples_seq f g rest

/-- The `struct riff_chunk`. -/
structure riff_chunk where
  name : List Nat
  num_bytes : Nat

/-- The `struct wav_data`. -/
structure wav_data where
  type : List Nat

/-- The `struct fmt_data`. -/
structure fmt_data where
  format : Nat
  num_channels : Nat
  samples_per_sec : Nat
  avg_bytes_per_sec : Nat
  block_align : Nat
  bits_per_sample : Nat

/-- The enumerator `WF_PCM`. -/
def WF_PCM : Nat := 1

/-- The bytes of a `uint16_t` in memory (little endian). -/
def u16_bytes (n : Nat) : List Nat :=
  [n % 256, n / 256 % 256]

/-- The bytes of a `uint32_t` in memory (little endian). -/
def u32_bytes (n : Nat) : List Nat :=
  [n % 256, n / 256 % 256, n / 65536 % 256, n / 16777216 % 256]

/-- The object representation of a `struct riff_chunk` (`sizeof` is 8). -/
def riff_chunk.to_bytes (c : riff_chunk) : List Nat :=
  c.name.take 4 ++ u32_bytes c.num_bytes

/-- The object representation of a `struct wav_data` (`sizeof` is 4). -/
def wav_data.to_bytes (w : wav_data) : List Nat :=
  w.type.take 4

/-- The object representation of a `struct fmt_data` (`sizeof` is 16, no
padding). -/
def fmt_data.to_bytes (d : fmt_data) : List Nat :=
  u16_bytes d.format ++ u16_bytes d.num_channels ++ u32_bytes d.samples_per_sec ++
    u32_bytes d.avg_bytes_per_sec ++ u16_bytes d.block_align ++ u16_bytes d.bits_per_sample

/-- The value of `sizeof(struct riff_chunk)`. -/
def sizeof_riff_chunk : Nat := 8

/-- The value of `sizeof(struct wav_data)`. -/
def sizeof_wav_data : Nat := 4

/-- The value of `sizeof(struct fmt_data)`. -/
def sizeof_fmt_data : Nat := 16

/-- The local variables of `write_wav_header` once filled in (lines 118-155). -/
structure HeaderLocals where
  riff_chunk : PataterSynth.riff_chunk
  data_chunk : PataterSynth.riff_chunk
  fmt_chunk : PataterSynth.riff_chunk
  fmt : fmt_data
  wav : wav_data

/-- Lines 118-155 of `write_wav_header`: the chunk headers computed from
`num_sample_bytes_written`. -/
def write_wav_header_locals (g : Writer) : HeaderLocals :=
  let data_chunk : riff_chunk :=
    { name := ['d'.toNat, 'a'.toNat, 't'.toNat, 'a'.toNat],
      num_bytes := g.num_sample_bytes_written % 2 ^ 32 }
  let sample_size_bytes : Nat := 2
  let num_channels : Nat := 1
  let samples_per_sec : Nat := 44100
  let frame_size : Nat := num_channels * sample_size_bytes
  let fmt : fmt_data :=
    { format := WF_PCM,
      num_channels := num_channels,
      samples_per_sec := samples_per_sec,
      avg_bytes_per_sec := samples_per_sec * frame_size % 2 ^ 32,
      block_align := frame_size % 2 ^ 16,
      bits_per_sample := sample_size_bytes * 8 % 2 ^ 16 }
  let fmt_chunk : riff_chunk :=
    { name := ['f'.toNat, 'm'.toNat, 't'.toNat, ' '.toNat], num_bytes := sizeof_fmt_data }
  let wav : wav_data := { type := ['W'.toNat, 'A'.toNat, 'V'.toNat, 'E'.toNat] }
  let riff_chunk : riff_chunk :=
    { name := ['R'.toNat, 'I'.toNat, 'F'.toNat, 'F'.toNat],
      num_bytes := (sizeof_riff_chunk + sizeof_wav_data + sizeof_riff_chunk + sizeof_fmt_data +
        sizeof_riff_chunk + data_chunk.num_bytes) % 2 ^ 32 }
  { riff_chunk := riff_chunk, data_chunk := data_chunk, fmt_chunk := fmt_chunk, fmt := fmt,
    wav := wav }

/-- Embedding of `write_wav_header`: the locals, `flush`, the seek to the start
of the file and the five `fwrite` calls. -/
def write_wav_header (f : FILE) (g : Writer) : FILE × Writer :=
  let h := write_wav_header_locals g
  let fg := flush f g
  let f := fg.1
  let g := fg.2
  let f := fseek_set f 0
  let f := fwrite h.riff_chunk.to_bytes f
  let f := fwrite h.wav.to_bytes f
  let f := fwrite h.fmt_chunk.to_bytes f
  let f := fwrite h.fmt.to_bytes f
  let f := fwrite h.data_chunk.to_bytes f
  (f, g)

/-- The 44 bytes that `write_wav_header` puts at the start of the file. -/
def header_bytes (g : Writer) : List Nat :=
  (write_wav_header_locals g).riff_chunk.to_bytes ++ (write_wav_header_locals g).wav.to_bytes ++
    (write_wav_header_locals g).fmt_chunk.to_bytes ++ (write_wav_header_locals g).fmt.to_bytes ++
    (write_wav_header_locals g).data_chunk.to_bytes

/-! ## Binary64 arithmetic

The definitions above take every `double` operation exactly.  The definitions
of this part round the result of every `double` operation to the nearest
`binary64` value, ties to even (53-bit significand, subnormals below
`2^-1022`), one rounding per C operation; a `double` is a rational that the
rounding leaves unchanged; no operations are fused and none is carried out in
a wider format.  Results at or beyond the overflow threshold `2^1024` are
outside the model.  These definitions are used where the integer that the code
stores depends on the rounding. -/

namespace Binary64

/-- Rounding to the nearest integer, ties to the even one. -/
def rne (x : ℚ) : ℤ :=
  if x - ⌊x⌋ < 1 / 2 then ⌊x⌋
  else if 1 / 2 < x - ⌊x⌋ then ⌊x⌋ + 1
  else if ⌊x⌋ % 2 = 0 then ⌊x⌋
  else ⌊x⌋ + 1

/-- Exponent of the last significand bit in the binade of `x`: `e - 52` for
`2^e ≤ |x| < 2^(e+1)`, and `-1074` for the subnormal range. -/
def ulp_exp (x : ℚ) : ℤ :=
  max (Int.log 2 |x|) (-1022) - 52

/-- The `binary64` value nearest to `x`, ties to even. -/
def rd (x : ℚ) : ℚ :=
  (rne (x / 2 ^ ulp_exp x) : ℚ) * 2 ^ ulp_exp x

/-- The constant `M_PI` of `<math.h>` as a `double`, `0x1.921FB54442D18p+1`. -/
def M_PI : ℚ := 884279719003555 / 281474976710656

/-- The library of `<math.h>` in `double`: the constant `M_PI`; `sin` is left to
the caller.  The product `M_2PI = 2.0 * M_PI` is exact in `binary64`. -/
def libm (sin : ℚ → ℚ) : Libm ℚ :=
  { M_PI := M_PI, M_PI_pos := by unfold M_PI; norm_num, sin := sin }

/-- The cast `(size_t)f` of a `double` with a 64-bit `size_t`: the truncated
value when it is representable, undefined (`none`) otherwise. -/
def to_size_t (f : ℚ) : Option Int :=
  if -1 < f ∧ f < 2 ^ 64 then some (trunc f) else none

/-- The value of `f` before the casts of `float_to_int_round` (line 103) in
`binary64` arithmetic. -/
def scaled_value (f : ℚ) : ℚ :=
  let f := rd (f + 1.0)
  let f := rd (f * 32767.5)
  let f := rd (f + 0.5)
  f

/-- Embedding of `float_to_int_round` (lines 90-111) in `binary64` arithmetic. -/
def float_to_int_round (f : ℚ) : Option Int :=
  let f := rd (f + 1.0)
  let f := rd (f * 32767.5)
  let f := rd (f + 0.5)
  match to_size_t f with
  | none => none
  | some u =>
    let s := to_short (size_t_sub u 32768)
    some s

/-- Embedding of `polyblep_narrow` (lines 50-68) in `binary64` arithmetic. -/
def polyblep_narrow (m : Libm ℚ) (st : State ℚ) (t : ℚ) : ℚ :=
  let dt := rd (st.phase_step / m.M_2PI)
  if t < dt then
    let t := rd (t / dt)
    rd (rd (rd (t + t) - rd (t * t)) - 1.0)
  else if t > rd (1.0 - dt) then
    let t := rd (rd (t - 1.0) / dt)
    rd (rd (rd (rd (t * t) + t) + t) + 1.0)
  else
    0.0

/-- The `double sample` of one `generate_square` iteration (lines 191-198) in
`binary64` arithmetic; `fmod` is exact. -/
def square_sample (m : Libm ℚ) (st : State ℚ) : ℚ :=
  let t := rd (st.phase / m.M_2PI)
  let sample : ℚ := if st.phase < m.M_PI then 1.0 else -1.0
  if polyblep_mode ≠ 0 then
    let sample := rd (sample + polyblep_narrow m st t)
    let sample := rd (sample - polyblep_narrow m st (fmod (rd (t + 0.5)) 1.0))
    sample
  else
    sample

end Binary64

end Embedding

section Proofs

variable {α : Type} [LinearOrderedField α] [FloorRing α]

set_option linter.unusedSectionVars false

/-! ## Quantizer -/

/-- On a scaled value in `[0, 65536)` the two casts and the subtraction of
`float_to_int_round` compute `⌊x⌋ - 32768` without any wrap. -/
theorem casts_in_range (x : α) (h0 : 0 ≤ x) (h1 : x < 65536) :
    to_short (size_t_sub (to_size_t x) 32768) = ⌊x⌋ - 32768 ∧
      0 ≤ ⌊x⌋ ∧ ⌊x⌋ ≤ 65535 := by
  have hf0 : 0 ≤ ⌊x⌋ := Int.floor_nonneg.mpr h0
  have hf1 : ⌊x⌋ < 65536 := by
    rw [Int.floor_lt]
    exact_mod_cast h1
  refine ⟨?_, hf0, by omega⟩
  unfold to_short size_t_sub to_size_t trunc
  rw [if_pos h0]
  omega

/-- The body of `float_to_int_round`, with the decimal literals normalised. -/
theorem float_to_int_round_unfold (f : α) :
    float_to_int_round f =
      to_short (size_t_sub (to_size_t ((f + 1) * 32767.5 + 0.5)) 32768) := by
  have : float_to_int_round f =
      to_short (size_t_sub (to_size_t ((f + 1.0) * 32767.5 + 0.5)) 32768) := rfl
  rw [this]
  norm_num

/-- The scaled value of a sample in `[-1, 1]` lies in `[0.5, 65535.5]`. -/
theorem scaled_range (f : α) (hlo : -1 ≤ f) (hhi : f ≤ 1) :
    (0 : α) ≤ (f + 1) * 32767.5 + 0.5 ∧ (f + 1) * 32767.5 + 0.5 < 65536 := by
  constructor
  · have : (0 : α) ≤ (f + 1) * 32767.5 := mul_nonneg (by linarith) (by norm_num)
    linarith
  · have : (f + 1) * 32767.5 ≤ (2 : α) * 32767.5 :=
      mul_le_mul_of_nonneg_right (by linarith) (by norm_num)
    norm_num at this ⊢
    linarith

/-- In range, the round quantizer is the floor formula. -/
theorem round_of_range (f : α) (hlo : -1 ≤ f) (hhi : f ≤ 1) :
    float_to_int_round f = ⌊(f + 1) * 32767.5 + 0.5⌋ - 32768 ∧
      0 ≤ ⌊(f + 1) * 32767.5 + 0.5⌋ ∧ ⌊(f + 1) * 32767.5 + 0.5⌋ ≤ 65535 := by
  obtain ⟨h0, h1⟩ := scaled_range f hlo hhi
  rw [float_to_int_round_unfold]
  exact casts_in_range _ h0 h1

/-- C2: the round quantizer is exact at the ends of its range,
`float_to_int_round (-1) = -32768` and `float_to_int_round 1 = 32767`, and
`float_to_int_round 0` is within 1 of 0. -/
theorem float_to_int_round_ends :
    float_to_int_round (-1 : α) = -32768 ∧ float_to_int_round (1 : α) = 32767 ∧
      |float_to_int_round (0 : α)| ≤ 1 := by
  have e1 : ⌊((-1 : α) + 1) * 32767.5 + 0.5⌋ = 0 := by
    rw [Int.floor_eq_iff]
    norm_num
  have e2 : ⌊((1 : α) + 1) * 32767.5 + 0.5⌋ = 65535 := by
    rw [Int.floor_eq_iff]
    norm_num
  have e3 : ⌊((0 : α) + 1) * 32767.5 + 0.5⌋ = 32768 := by
    rw [Int.floor_eq_iff]
    norm_num
  refine ⟨?_, ?_, ?_⟩
  · rw [(round_of_range (-1 : α) le_rfl (by norm_num)).1, e1]
    norm_num
  · rw [(round_of_range (1 : α) (by norm_num) le_rfl).1, e2]
    norm_num
  · rw [(round_of_range (0 : α) (by norm_num) (by norm_num)).1, e3]
    norm_num

/-- The constant `M_2PI` is twice `M_PI`. -/
theorem M_2PI_eq (m : Libm α) : m.M_2PI = 2 * m.M_PI := by
  unfold Libm.M_2PI
  norm_num

/-- The constant `M_2PI` is positive. -/
theorem M_2PI_pos (m : Libm α) : 0 < m.M_2PI := by
  rw [M_2PI_eq]
  have := m.M_PI_pos
  linarith

/-- With the real `π`, `M_2PI` is `2π`. -/
theorem real_M_2PI : (Libm.mk Real.pi Real.pi_pos Real.sin).M_2PI = 2 * Real.pi :=
  M_2PI_eq _

/-- The real `2π` exceeds 1. -/
theorem real_M_2PI_gt : (1 : ℝ) < (Libm.mk Real.pi Real.pi_pos Real.sin).M_2PI := by
  rw [real_M_2PI]
  linarith [Real.pi_gt_three]

/-- Below `M_2PI` the wrap loop does not run. -/
theorem wrap_phase_lt (m : Libm α) (p : α) (h : p < m.M_2PI) : wrap_phase m p = p := by
  rw [wrap_phase, if_neg (not_le.mpr h)]

/-- From `M_2PI` on the wrap loop subtracts once and continues. -/
theorem wrap_phase_ge (m : Libm α) (p : α) (h : m.M_2PI ≤ p) :
    wrap_phase m p = wrap_phase m (p - m.M_2PI) := by
  rw [wrap_phase, if_pos h]

/-- One advance from a phase in `[0, 2π)` by a step in `(0, 2π)`. -/
theorem wrap_phase_step (m : Libm α) (p s : α) (h0 : 0 ≤ p) (h1 : p < m.M_2PI)
    (hs0 : 0 < s) (hs1 : s < m.M_2PI) :
    wrap_phase m (p + s) = (if p + s ≥ m.M_2PI then p + s - m.M_2PI else p + s) ∧
      0 ≤ wrap_phase m (p + s) ∧ wrap_phase m (p + s) < m.M_2PI := by
  by_cases h : m.M_2PI ≤ p + s
  · have h2 : p + s - m.M_2PI < m.M_2PI := by linarith
    rw [wrap_phase_ge m _ h, wrap_phase_lt m _ h2, if_pos h]
    exact ⟨rfl, by linarith, h2⟩
  · have h2 : p + s < m.M_2PI := not_le.mp h
    rw [wrap_phase_lt m _ h2, if_neg h]
    exact ⟨rfl, by linarith, h2⟩

/-- A value in `[0, M)` that differs from `x` by a whole multiple of `M` is
`x mod M`. -/
theorem mod_unique (M x p : α) (k : ℤ) (hM : 0 < M) (h0 : 0 ≤ p) (h1 : p < M)
    (hk : p = x - k * M) : p = x - ⌊x / M⌋ * M := by
  have hx : x / M = p / M + k := by
    rw [hk]
    field_simp
  have hfl : ⌊x / M⌋ = k := by
    rw [hx, Int.floor_add_int, Int.floor_eq_zero_iff.mpr, zero_add]
    exact ⟨div_nonneg h0 hM.le, (div_lt_one hM).mpr h1⟩
  rw [hfl]
  exact hk

/-- Phase bookkeeping of a sample loop whose iteration ends with the phase
advance: the step is kept, the phase stays in `[0, 2π)` and differs from
`phase + n·step` by a whole number of turns. -/
theorem loop_phase (m : Libm α) (step : State α → State α)
    (final : State α → Nat → State α)
    (hz : ∀ st, final st 0 = st) (hs : ∀ st n, final st (n + 1) = final (step st) n)
    (hp : ∀ st, (step st).phase = wrap_phase m (st.phase + st.phase_step) ∧
      (step st).phase_step = st.phase_step) :
    ∀ (n : Nat) (st : State α), 0 ≤ st.phase → st.phase < m.M_2PI →
      0 < st.phase_step → st.phase_step < m.M_2PI →
      (final st n).phase_step = st.phase_step ∧ 0 ≤ (final st n).phase ∧
        (final st n).phase < m.M_2PI ∧
        ∃ k : ℤ, (final st n).phase = st.phase + n * st.phase_step - k * m.M_2PI := by
  intro n
  induction n with
  | zero =>
    intro st h0 h1 _ _
    rw [hz]
    exact ⟨rfl, h0, h1, 0, by simp⟩
  | succ n ih =>
    intro st h0 h1 hs0 hs1
    obtain ⟨hph, hst⟩ := hp st
    obtain ⟨hw, hw0, hw1⟩ := wrap_phase_step m st.phase st.phase_step h0 h1 hs0 hs1
    have hs0' : 0 < (step st).phase_step := by rw [hst]; exact hs0
    have hs1' : (step st).phase_step < m.M_2PI := by rw [hst]; exact hs1
    have h0' : 0 ≤ (step st).phase := by rw [hph]; exact hw0
    have h1' : (step st).phase < m.M_2PI := by rw [hph]; exact hw1
    obtain ⟨i1, i2, i3, k, hk⟩ := ih (step st) h0' h1' hs0' hs1'
    rw [hs]
    refine ⟨i1.trans hst, i2, i3, ?_⟩
    rw [hk, hph, hst, hw]
    by_cases h : st.phase + st.phase_step ≥ m.M_2PI
    · rw [if_pos h]
      refine ⟨k + 1, ?_⟩
      push_cast
      ring
    · rw [if_neg h]
      refine ⟨k, ?_⟩
      push_cast
      ring

/-- Splitting of a sample loop: `a + b` iterations are `a` iterations followed
by `b` iterations on the state left behind. -/
theorem loop_split (g : State α → Nat → List Int × State α) (out : State α → Int)
    (step : State α → State α) (hz : ∀ st, g st 0 = ([], st))
    (hs : ∀ st n, g st (n + 1) = (out st :: (g (step st) n).1, (g (step st) n).2)) :
    ∀ (a b : Nat) (st : State α),
      g st (a + b) = ((g st a).1 ++ (g (g st a).2 b).1, (g (g st a).2 b).2) := by
  intro a
  induction a with
  | zero =>
    intro b st
    simp [hz]
  | succ a ih =>
    intro b st
    rw [Nat.succ_add, hs, hs, ih b (step st)]
    simp

/-- The step function that `generate_triangle` applies between samples. -/
theorem triangle_step_phase (m : Libm α) (st : State α) :
    (advance_phase m { st with prev := (triangle_sample m st).2 }).phase =
        wrap_phase m (st.phase + st.phase_step) ∧
      (advance_phase m { st with prev := (triangle_sample m st).2 }).phase_step =
        st.phase_step :=
  ⟨rfl, rfl⟩

/-- Phase bookkeeping of `generate_sine`. -/
theorem sine_phase (m : Libm α) (n : Nat) (st : State α) (h0 : 0 ≤ st.phase)
    (h1 : st.phase < m.M_2PI) (hs0 : 0 < st.phase_step) (hs1 : st.phase_step < m.M_2PI) :
    (generate_sine m st n).2.phase_step = st.phase_step ∧
      0 ≤ (generate_sine m st n).2.phase ∧ (generate_sine m st n).2.phase < m.M_2PI ∧
      ∃ k : ℤ, (generate_sine m st n).2.phase =
        st.phase + n * st.phase_step - k * m.M_2PI :=
  loop_phase m (advance_phase m)
    (fun st n => (generate_sine m st n).2)
    (fun _ => rfl) (fun _ _ => rfl) (fun _ => ⟨rfl, rfl⟩) n st h0 h1 hs0 hs1

/-- Phase bookkeeping of `generate_square`. -/
theorem square_phase (m : Libm α) (n : Nat) (st : State α) (h0 : 0 ≤ st.phase)
    (h1 : st.phase < m.M_2PI) (hs0 : 0 < st.phase_step) (hs1 : st.phase_step < m.M_2PI) :
    (generate_square m st n).2.phase_step = st.phase_step ∧
      0 ≤ (generate_square m st n).2.phase ∧ (generate_square m st n).2.phase < m.M_2PI ∧
      ∃ k : ℤ, (generate_square m st n).2.phase =
        st.phase + n * st.phase_step - k * m.M_2PI :=
  loop_phase m (advance_phase m)
    (fun st n => (generate_square m st n).2)
    (fun _ => rfl) (fun _ _ => rfl) (fun _ => ⟨rfl, rfl⟩) n st h0 h1 hs0 hs1

/-- Phase bookkeeping of `generate_saw`. -/
theorem saw_phase (m : Libm α) (n : Nat) (st : State α) (h0 : 0 ≤ st.phase)
    (h1 : st.phase < m.M_2PI) (hs0 : 0 < st.phase_step) (hs1 : st.phase_step < m.M_2PI) :
    (generate_saw m st n).2.phase_step = st.phase_step ∧
      0 ≤ (generate_saw m st n).2.phase ∧ (generate_saw m st n).2.phase < m.M_2PI ∧
      ∃ k : ℤ, (generate_saw m st n).2.phase =
        st.phase + n * st.phase_step - k * m.M_2PI :=
  loop_phase m (advance_phase m)
    (fun st n => (generate_saw m st n).2)
    (fun _ => rfl) (fun _ _ => rfl) (fun _ => ⟨rfl, rfl⟩) n st h0 h1 hs0 hs1

/-- Phase bookkeeping of `generate_triangle`. -/
theorem triangle_phase (m : Libm α) (n : Nat) (st : State α) (h0 : 0 ≤ st.phase)
    (h1 : st.phase < m.M_2PI) (hs0 : 0 < st.phase_step) (hs1 : st.phase_step < m.M_2PI) :
    (generate_triangle m st n).2.phase_step = st.phase_step ∧
      0 ≤ (generate_triangle m st n).2.phase ∧ (generate_triangle m st n).2.phase < m.M_2PI ∧
      ∃ k : ℤ, (generate_triangle m st n).2.phase =
        st.phase + n * st.phase_step - k * m.M_2PI :=
  loop_phase m (fun st => advance_phase m { st with prev := (triangle_sample m st).2 })
    (fun st n => (generate_triangle m st n).2)
    (fun _ => rfl) (fun _ _ => rfl) (triangle_step_phase m) n st h0 h1 hs0 hs1

/-- C4: from a phase in `[0, 2π)` and a step in `(0, 2π)`, the phase advance
that ends every generator iteration subtracts `2π` at most once and leaves the
phase in `[0, 2π)`; consequently every `generate_*` call leaves the phase in
`[0, 2π)`. -/
theorem advance_phase_invariant (m : Libm α) (st : State α) (h0 : 0 ≤ st.phase)
    (h1 : st.phase < m.M_2PI) (hs0 : 0 < st.phase_step) (hs1 : st.phase_step < m.M_2PI) :
    ((advance_phase m st).phase =
        (if st.phase + st.phase_step ≥ m.M_2PI then st.phase + st.phase_step - m.M_2PI
          else st.phase + st.phase_step) ∧
      0 ≤ (advance_phase m st).phase ∧ (advance_phase m st).phase < m.M_2PI) ∧
    ∀ n : Nat,
      (0 ≤ (generate_sine m st n).2.phase ∧ (generate_sine m st n).2.phase < m.M_2PI) ∧
      (0 ≤ (generate_square m st n).2.phase ∧ (generate_square m st n).2.phase < m.M_2PI) ∧
      (0 ≤ (generate_saw m st n).2.phase ∧ (generate_saw m st n).2.phase < m.M_2PI) ∧
      (0 ≤ (generate_triangle m st n).2.phase ∧
        (generate_triangle m st n).2.phase < m.M_2PI) := by
  refine ⟨wrap_phase_step m st.phase st.phase_step h0 h1 hs0 hs1, fun n => ?_⟩
  obtain ⟨_, a1, a2, _⟩ := sine_phase m n st h0 h1 hs0 hs1
  obtain ⟨_, b1, b2, _⟩ := square_phase m n st h0 h1 hs0 hs1
  obtain ⟨_, c1, c2, _⟩ := saw_phase m n st h0 h1 hs0 hs1
  obtain ⟨_, d1, d2, _⟩ := triangle_phase m n st h0 h1 hs0 hs1
  exact ⟨⟨a1, a2⟩, ⟨b1, b2⟩, ⟨c1, c2⟩, ⟨d1, d2⟩⟩

/-- Witness for C4: phase 1 and step 1 against the real `2π`. -/
theorem advance_phase_invariant_witness :
    (0 ≤ (advance_phase (Libm.mk Real.pi Real.pi_pos Real.sin)
        { mode := OscillatorMode.OM_SINE, fundamental := 440, phase := 1, phase_step := 1,
          prev := 0 }).phase ∧
      (advance_phase (Libm.mk Real.pi Real.pi_pos Real.sin)
        { mode := OscillatorMode.OM_SINE, fundamental := 440, phase := 1, phase_step := 1,
          prev := 0 }).phase < (Libm.mk Real.pi Real.pi_pos Real.sin).M_2PI) :=
  (advance_phase_invariant (Libm.mk Real.pi Real.pi_pos Real.sin)
    { mode := OscillatorMode.OM_SINE, fundamental := 440, phase := 1, phase_step := 1,
      prev := 0 } zero_le_one real_M_2PI_gt zero_lt_one real_M_2PI_gt).1.2

/-- C5: from a phase in `[0, 2π)` with a constant step in `(0, 2π)`, the phase
left by each of the four generators after `N` samples is
`(phase0 + N·step) mod 2π`, the same for all four. -/
theorem generate_final_phase (m : Libm α) (st : State α) (N : Nat) (h0 : 0 ≤ st.phase)
    (h1 : st.phase < m.M_2PI) (hs0 : 0 < st.phase_step) (hs1 : st.phase_step < m.M_2PI) :
    (generate_sine m st N).2.phase =
        st.phase + N * st.phase_step -
          ⌊(st.phase + N * st.phase_step) / m.M_2PI⌋ * m.M_2PI ∧
      (generate_square m st N).2.phase =
        st.phase + N * st.phase_step -
          ⌊(st.phase + N * st.phase_step) / m.M_2PI⌋ * m.M_2PI ∧
      (generate_saw m st N).2.phase =
        st.phase + N * st.phase_step -
          ⌊(st.phase + N * st.phase_step) / m.M_2PI⌋ * m.M_2PI ∧
      (generate_triangle m st N).2.phase =
        st.phase + N * st.phase_step -
          ⌊(st.phase + N * st.phase_step) / m.M_2PI⌋ * m.M_2PI := by
  obtain ⟨_, a1, a2, ka, ha⟩ := sine_phase m N st h0 h1 hs0 hs1
  obtain ⟨_, b1, b2, kb, hb⟩ := square_phase m N st h0 h1 hs0 hs1
  obtain ⟨_, c1, c2, kc, hc⟩ := saw_phase m N st h0 h1 hs0 hs1
  obtain ⟨_, d1, d2, kd, hd⟩ := triangle_phase m N st h0 h1 hs0 hs1
  exact ⟨mod_unique _ _ _ ka (M_2PI_pos m) a1 a2 ha,
    mod_unique _ _ _ kb (M_2PI_pos m) b1 b2 hb,
    mod_unique _ _ _ kc (M_2PI_pos m) c1 c2 hc,
    mod_unique _ _ _ kd (M_2PI_pos m) d1 d2 hd⟩

/-- Witness for C5: ten triangle samples from phase 1 with step 1 against the
real `2π`. -/
theorem generate_final_phase_witness :
    (generate_triangle (Libm.mk Real.pi Real.pi_pos Real.sin)
        { mode := OscillatorMode.OM_SINE, fundamental := 440, phase := 1, phase_step := 1,
          prev := 0 } 10).2.phase =
      1 + (10 : ℕ) * 1 - ⌊((1 : ℝ) + (10 : ℕ) * 1) /
        (Libm.mk Real.pi Real.pi_pos Real.sin).M_2PI⌋ *
          (Libm.mk Real.pi Real.pi_pos Real.sin).M_2PI :=
  (generate_final_phase (Libm.mk Real.pi Real.pi_pos Real.sin)
    { mode := OscillatorMode.OM_SINE, fundamental := 440, phase := 1, phase_step := 1,
      prev := 0 } 10 zero_le_one real_M_2PI_gt zero_lt_one real_M_2PI_gt).2.2.2

/-- C6: for each of the four generators and every starting state, generating
`a + b` samples in one call gives the same samples and the same final state as
generating `a` samples and then `b` samples on the state left behind. -/
theorem generate_split (m : Libm α) (st : State α) (a b : Nat) :
    generate_sine m st (a + b) =
        ((generate_sine m st a).1 ++ (generate_sine m (generate_sine m st a).2 b).1,
          (generate_sine m (generate_sine m st a).2 b).2) ∧
      generate_square m st (a + b) =
        ((generate_square m st a).1 ++ (generate_square m (generate_square m st a).2 b).1,
          (generate_square m (generate_square m st a).2 b).2) ∧
      generate_saw m st (a + b) =
        ((generate_saw m st a).1 ++ (generate_saw m (generate_saw m st a).2 b).1,
          (generate_saw m (generate_saw m st a).2 b).2) ∧
      generate_triangle m st (a + b) =
        ((generate_triangle m st a).1 ++
            (generate_triangle m (generate_triangle m st a).2 b).1,
          (generate_triangle m (generate_triangle m st a).2 b).2) :=
  ⟨loop_split (generate_sine m) (fun st => float_to_int (sine_sample m st))
      (advance_phase m) (fun _ => rfl) (fun _ _ => rfl) a b st,
    loop_split (generate_square m) (fun st => float_to_int (square_sample m st))
      (advance_phase m) (fun _ => rfl) (fun _ _ => rfl) a b st,
    loop_split (generate_saw m) (fun st => float_to_int (saw_sample m st))
      (advance_phase m) (fun _ => rfl) (fun _ _ => rfl) a b st,
    loop_split (generate_triangle m) (fun st => float_to_int (triangle_sample m st).1)
      (fun st => advance_phase m { st with prev := (triangle_sample m st).2 })
      (fun _ => rfl) (fun _ _ => rfl) a b st⟩

/-! ## PolyBLEP kernel and sample ranges -/

/-- The two polynomial branches of `polyblep_narrow` as squares. -/
theorem polyblep_narrow_unfold (m : Libm α) (st : State α) (t : α) :
    polyblep_narrow m st t =
      if t < st.phase_step / m.M_2PI then -(1 - t / (st.phase_step / m.M_2PI)) ^ 2
      else if 1 - st.phase_step / m.M_2PI < t then
        ((t - 1) / (st.phase_step / m.M_2PI) + 1) ^ 2
      else 0 := by
  have e : (1.0 : α) = 1 := by norm_num
  have z : (0.0 : α) = 0 := by norm_num
  unfold polyblep_narrow
  simp only [e, z, gt_iff_lt]
  by_cases h1 : t < st.phase_step / m.M_2PI
  · rw [if_pos h1, if_pos h1]
    ring
  · rw [if_neg h1, if_neg h1]
    by_cases h2 : 1 - st.phase_step / m.M_2PI < t
    · rw [if_pos h2, if_pos h2]
      ring
    · rw [if_neg h2, if_neg h2]

/-- Range of `polyblep_narrow` on `[0, 1)`: within `[-1, 1]`, non-negative from
`dt` on and non-positive up to `1 - dt`. -/
theorem polyblep_narrow_bounds (m : Libm α) (st : State α) (t : α)
    (hdt : 0 < st.phase_step / m.M_2PI) (ht0 : 0 ≤ t) (ht1 : t < 1) :
    (-1 ≤ polyblep_narrow m st t ∧ polyblep_narrow m st t ≤ 1) ∧
      (st.phase_step / m.M_2PI ≤ t → 0 ≤ polyblep_narrow m st t) ∧
      (t ≤ 1 - st.phase_step / m.M_2PI → polyblep_narrow m st t ≤ 0) := by
  rw [polyblep_narrow_unfold]
  set dt := st.phase_step / m.M_2PI with hd
  by_cases h1 : t < dt
  · rw [if_pos h1]
    have hx0 : 0 ≤ t / dt := div_nonneg ht0 hdt.le
    have hx1 : t / dt < 1 := (div_lt_one hdt).mpr h1
    refine ⟨⟨?_, ?_⟩, fun h => absurd h1 (not_lt.mpr h), fun _ => ?_⟩ <;> nlinarith
  · rw [if_neg h1]
    by_cases h2 : 1 - dt < t
    · rw [if_pos h2]
      have hx0 : -1 < (t - 1) / dt := by
        rw [lt_div_iff₀ hdt]; linarith
      have hx1 : (t - 1) / dt < 0 := div_neg_of_neg_of_pos (by linarith) hdt
      refine ⟨⟨?_, ?_⟩, fun _ => ?_, fun h => absurd h2 (not_lt.mpr h)⟩ <;> nlinarith
    · rw [if_neg h2]
      refine ⟨⟨by norm_num, by norm_num⟩, fun _ => le_rfl, fun _ => le_rfl⟩

/-- C7: for every normalized phase `t ≥ 0` (in particular `0 ≤ t < 1`, for any
`dt = phase_step / 2π`), `polyblep_narrow t` equals the canonical narrow kernel
of the specification, and it returns 0 for every `t` strictly between `dt` and
`1 - dt`. -/
theorem polyblep_narrow_canonical (m : Libm α) (st : State α) (t : α) (ht0 : 0 ≤ t) :
    polyblep_narrow m st t = polyblep_narrow_spec (st.phase_step / m.M_2PI) t ∧
      (st.phase_step / m.M_2PI < t → t < 1 - st.phase_step / m.M_2PI →
        polyblep_narrow m st t = 0) := by
  constructor
  · rw [polyblep_narrow_unfold]
    unfold polyblep_narrow_spec
    by_cases h1 : t < st.phase_step / m.M_2PI
    · have h1' : 0 ≤ t ∧ t < st.phase_step / m.M_2PI := ⟨ht0, h1⟩
      rw [if_pos h1, if_pos h1']
      ring
    · have h1' : ¬(0 ≤ t ∧ t < st.phase_step / m.M_2PI) := fun h => h1 h.2
      rw [if_neg h1, if_neg h1']
      by_cases h2 : 1 - st.phase_step / m.M_2PI < t
      · rw [if_pos h2, if_pos (show t > 1 - st.phase_step / m.M_2PI from h2)]
        ring
      · rw [if_neg h2, if_neg (show ¬ t > 1 - st.phase_step / m.M_2PI from h2)]
  · intro h1 h2
    rw [polyblep_narrow_unfold, if_neg (not_lt.mpr h1.le), if_neg (not_lt.mpr h2.le)]

/-- Witness for C7 at `t = 1/2` with step 1 against the real `2π`. -/
theorem polyblep_narrow_canonical_witness :
    polyblep_narrow (Libm.mk Real.pi Real.pi_pos Real.sin)
        { mode := OscillatorMode.OM_SINE, fundamental := 440, phase := 1, phase_step := 1,
          prev := 0 } (1 / 2) =
      polyblep_narrow_spec (1 / (Libm.mk Real.pi Real.pi_pos Real.sin).M_2PI) (1 / 2) :=
  (polyblep_narrow_canonical (Libm.mk Real.pi Real.pi_pos Real.sin)
    { mode := OscillatorMode.OM_SINE, fundamental := 440, phase := 1, phase_step := 1,
      prev := 0 } (1 / 2) (by norm_num)).1

/-- The falling-edge phase `fmod(t + 0.5, 1.0)` in the first half turn. -/
theorem fmod_half_lo (t : α) (h0 : 0 ≤ t) (h1 : t < 1 / 2) :
    fmod (t + 0.5) 1.0 = t + 1 / 2 := by
  unfold fmod trunc
  have e : (t + 0.5) / (1.0 : α) = t + 1 / 2 := by norm_num
  rw [e, if_pos (by linarith), Int.floor_eq_zero_iff.mpr ⟨by linarith, by linarith⟩]
  norm_num

/-- The falling-edge phase `fmod(t + 0.5, 1.0)` in the second half turn. -/
theorem fmod_half_hi (t : α) (h0 : 1 / 2 ≤ t) (h1 : t < 1) :
    fmod (t + 0.5) 1.0 = t - 1 / 2 := by
  unfold fmod trunc
  have e : (t + 0.5) / (1.0 : α) = t + 1 / 2 := by norm_num
  have hf : ⌊t + 1 / 2⌋ = 1 := by
    rw [Int.floor_eq_iff]
    constructor <;> push_cast <;> linarith
  rw [e, if_pos (by linarith), hf]
  norm_num
  ring

/-- Normalized phase and step of a state with phase in `[0, 2π)` and step in
`(0, π)`. -/
theorem norm_phase_range (m : Libm α) (st : State α) (h0 : 0 ≤ st.phase)
    (h1 : st.phase < m.M_2PI) (hs0 : 0 < st.phase_step) (hs1 : st.phase_step < m.M_PI) :
    (0 ≤ st.phase / m.M_2PI ∧ st.phase / m.M_2PI < 1) ∧
      (0 < st.phase_step / m.M_2PI ∧ st.phase_step / m.M_2PI < 1 / 2) ∧
      (st.phase < m.M_PI ↔ st.phase / m.M_2PI < 1 / 2) ∧
      st.phase / m.M_PI = 2 * (st.phase / m.M_2PI) := by
  have hM := M_2PI_pos m
  have hpi := m.M_PI_pos
  have hE := M_2PI_eq m
  refine ⟨⟨div_nonneg h0 hM.le, (div_lt_one hM).mpr h1⟩, ⟨div_pos hs0 hM, ?_⟩, ?_, ?_⟩
  · rw [div_lt_iff₀ hM]
    linarith
  · rw [div_lt_iff₀ hM]
    constructor <;> intro h <;> linarith
  · rw [hE]
    field_simp
    ring

/-- The `sample` of `generate_square` with `polyblep_mode` on. -/
theorem square_sample_unfold (m : Libm α) (st : State α) :
    square_sample m st =
      (if st.phase < m.M_PI then (1 : α) else -1) +
          polyblep_narrow m st (st.phase / m.M_2PI) -
        polyblep_narrow m st (fmod (st.phase / m.M_2PI + 0.5) 1.0) := by
  unfold square_sample polyblep_mode
  norm_num

/-- The corrected square sample lies in `[-1, 1]`. -/
theorem square_sample_bounds (m : Libm α) (st : State α) (h0 : 0 ≤ st.phase)
    (h1 : st.phase < m.M_2PI) (hs0 : 0 < st.phase_step) (hs1 : st.phase_step < m.M_PI) :
    -1 ≤ square_sample m st ∧ square_sample m st ≤ 1 := by
  obtain ⟨⟨t0, t1⟩, ⟨d0, d1⟩, hhalf, _⟩ := norm_phase_range m st h0 h1 hs0 hs1
  rw [square_sample_unfold]
  by_cases h : st.phase < m.M_PI
  · have ht : st.phase / m.M_2PI < 1 / 2 := hhalf.mp h
    rw [if_pos h, fmod_half_lo _ t0 ht]
    obtain ⟨⟨a1, _⟩, _, a3⟩ := polyblep_narrow_bounds m st _ d0 t0 t1
    obtain ⟨⟨_, b2⟩, b3, _⟩ :=
      polyblep_narrow_bounds m st (st.phase / m.M_2PI + 1 / 2) d0 (by linarith) (by linarith)
    have a3' := a3 (by linarith)
    have b3' := b3 (by linarith)
    constructor <;> linarith
  · have ht : 1 / 2 ≤ st.phase / m.M_2PI := by
      by_contra hc
      exact h (hhalf.mpr (not_le.mp hc))
    rw [if_neg h, fmod_half_hi _ ht t1]
    obtain ⟨⟨_, a2⟩, a3, _⟩ := polyblep_narrow_bounds m st _ d0 t0 t1
    obtain ⟨⟨b1, _⟩, _, b3⟩ :=
      polyblep_narrow_bounds m st (st.phase / m.M_2PI - 1 / 2) d0 (by linarith) (by linarith)
    have a3' := a3 (by linarith)
    have b3' := b3 (by linarith)
    constructor <;> linarith

/-! ## Triangle -/

/-- The `sample` and `prev` of `generate_triangle` with `polyblep_mode` on: the
leaky integrator over the corrected square. -/
theorem triangle_sample_unfold (m : Libm α) (st : State α) :
    triangle_sample m st =
      (st.phase_step * square_sample m st + (1 - st.phase_step) * st.prev,
        st.phase_step * square_sample m st + (1 - st.phase_step) * st.prev) := by
  rw [square_sample_unfold]
  unfold triangle_sample polyblep_mode
  norm_num

/-- With an integrator coefficient `phase_step ≤ 1` and `prev` in `[-1, 1]` the
triangle sample stays in `[-1, 1]`. -/
theorem triangle_sample_bounds (m : Libm α) (st : State α) (h0 : 0 ≤ st.phase)
    (h1 : st.phase < m.M_2PI) (hs0 : 0 < st.phase_step) (hs1 : st.phase_step ≤ 1)
    (hpi : 1 < m.M_PI) (hp0 : -1 ≤ st.prev) (hp1 : st.prev ≤ 1) :
    -1 ≤ (triangle_sample m st).1 ∧ (triangle_sample m st).1 ≤ 1 := by
  obtain ⟨q0, q1⟩ := square_sample_bounds m st h0 h1 hs0 (by linarith)
  rw [triangle_sample_unfold]
  have a1 := mul_nonneg hs0.le (by linarith : 0 ≤ square_sample m st + 1)
  have a2 := mul_nonneg hs0.le (by linarith : 0 ≤ 1 - square_sample m st)
  have b1 := mul_nonneg (by linarith : 0 ≤ 1 - st.phase_step) (by linarith : 0 ≤ st.prev + 1)
  have b2 := mul_nonneg (by linarith : 0 ≤ 1 - st.phase_step) (by linarith : 0 ≤ 1 - st.prev)
  constructor
  · show -1 ≤ st.phase_step * square_sample m st + (1 - st.phase_step) * st.prev
    linarith
  · show st.phase_step * square_sample m st + (1 - st.phase_step) * st.prev ≤ 1
    linarith

/-- The quantizer at the out-of-range sample `3/2`. -/
theorem float_to_int_three_halves : float_to_int (3 / 2 : α) = -16385 := by
  have e : ((3 / 2 : α) + 1) * 32767.5 + 0.5 = ((81919 : ℤ) : α) + 1 / 4 := by norm_num
  have hf : ⌊((3 / 2 : α) + 1) * 32767.5 + 0.5⌋ = 81919 := by
    rw [e, Int.floor_eq_iff]
    constructor <;> norm_num
  have h0 : (0 : α) ≤ ((3 / 2 : α) + 1) * 32767.5 + 0.5 := by norm_num
  show float_to_int_round (3 / 2 : α) = -16385
  rw [float_to_int_round_unfold]
  unfold to_short size_t_sub to_size_t trunc
  rw [if_pos h0, hf]
  norm_num

/-- The quantizer at the sample `0`. -/
theorem float_to_int_zero : float_to_int (0 : α) = 0 := by
  have hf : ⌊((0 : α) + 1) * 32767.5 + 0.5⌋ = 32768 := by
    rw [Int.floor_eq_iff]
    norm_num
  show float_to_int_round (0 : α) = 0
  rw [(round_of_range (0 : α) (by norm_num) (by norm_num)).1, hf]
  norm_num

/-- Two triangle samples from the start-up variables (`phase = 0`, `prev = 0`)
with `phase_step = 3/2`: the second sample is `3/2`, stored as `-16385`. -/
theorem overshoot_of_pi_gt_three (m : Libm α) (h3 : 3 < m.M_PI) :
    triangle_sample m
        { mode := OscillatorMode.OM_SINE, fundamental := 0, phase := 0, phase_step := 3 / 2,
          prev := 0 } = (0, 0) ∧
      advance_phase m
        { mode := OscillatorMode.OM_SINE, fundamental := 0, phase := 0, phase_step := 3 / 2,
          prev := 0 } =
        { mode := OscillatorMode.OM_SINE, fundamental := 0, phase := 3 / 2,
          phase_step := 3 / 2, prev := 0 } ∧
      triangle_sample m
        { mode := OscillatorMode.OM_SINE, fundamental := 0, phase := 3 / 2,
          phase_step := 3 / 2, prev := 0 } = (3 / 2, 3 / 2) ∧
      (generate_triangle m
        { mode := OscillatorMode.OM_SINE, fundamental := 0, phase := 0, phase_step := 3 / 2,
          prev := 0 } 2).1 = [0, -16385] ∧
      (generate_triangle m
        { mode := OscillatorMode.OM_SINE, fundamental := 0, phase := 0, phase_step := 3 / 2,
          prev := 0 } 2).2.prev = 3 / 2 := by
  have hM := M_2PI_eq m
  have hMp := M_2PI_pos m
  have hdt : (3 / 2 : α) / m.M_2PI < 1 / 4 := by
    rw [div_lt_iff₀ hMp, hM]
    linarith
  have hdt0 : 0 < (3 / 2 : α) / m.M_2PI := div_pos (by norm_num) hMp
  have s1 : square_sample m
      { mode := OscillatorMode.OM_SINE, fundamental := 0, phase := 0, phase_step := 3 / 2,
        prev := 0 } = 0 := by
    rw [square_sample_unfold]
    simp only []
    rw [if_pos m.M_PI_pos, zero_div, fmod_half_lo 0 le_rfl (by norm_num),
      polyblep_narrow_unfold, polyblep_narrow_unfold]
    simp only []
    rw [if_pos hdt0, if_neg (by linarith), if_neg (by linarith)]
    norm_num
  have t1 : triangle_sample m
      { mode := OscillatorMode.OM_SINE, fundamental := 0, phase := 0, phase_step := 3 / 2,
        prev := 0 } = (0, 0) := by
    rw [triangle_sample_unfold, s1]
    simp
  have ha : advance_phase m
      { mode := OscillatorMode.OM_SINE, fundamental := 0, phase := 0, phase_step := 3 / 2,
        prev := 0 } =
      { mode := OscillatorMode.OM_SINE, fundamental := 0, phase := 3 / 2,
        phase_step := 3 / 2, prev := 0 } := by
    unfold advance_phase
    simp only [zero_add]
    rw [wrap_phase_lt m _ (by rw [hM]; linarith)]
  have s2 : square_sample m
      { mode := OscillatorMode.OM_SINE, fundamental := 0, phase := 3 / 2,
        phase_step := 3 / 2, prev := 0 } = 1 := by
    rw [square_sample_unfold]
    simp only []
    rw [if_pos (by linarith), fmod_half_lo _ hdt0.le (by linarith),
      polyblep_narrow_unfold, polyblep_narrow_unfold]
    simp only []
    rw [if_neg (lt_irrefl _), if_neg (by linarith), if_neg (by linarith),
      if_neg (by linarith)]
    norm_num
  have t2 : triangle_sample m
      { mode := OscillatorMode.OM_SINE, fundamental := 0, phase := 3 / 2,
        phase_step := 3 / 2, prev := 0 } = (3 / 2, 3 / 2) := by
    rw [triangle_sample_unfold, s2]
    simp
  refine ⟨t1, ha, t2, ?_, ?_⟩
  · simp only [generate_triangle, t1, ha, t2, float_to_int_zero, float_to_int_three_halves]
  · simp only [generate_triangle, t1, ha, t2]
    rfl

/-- C9 (failing input): with the real `π`, from `phase = 0`, `prev = 0` and the valid
step `phase_step = 3/2 < π`, the second sample of `generate_triangle` is `3/2`
before quantization, outside `[-1, 1]`; it is stored as `-16385` and left in
`prev`. -/
theorem triangle_overshoot :
    (0 < (3 / 2 : ℝ) ∧ (3 / 2 : ℝ) < (Libm.mk Real.pi Real.pi_pos Real.sin).M_PI) ∧
      triangle_sample (Libm.mk Real.pi Real.pi_pos Real.sin)
        { mode := OscillatorMode.OM_SINE, fundamental := 0, phase := 3 / 2,
          phase_step := 3 / 2, prev := 0 } = (3 / 2, 3 / 2) ∧
      (generate_triangle (Libm.mk Real.pi Real.pi_pos Real.sin)
        { mode := OscillatorMode.OM_SINE, fundamental := 0, phase := 0, phase_step := 3 / 2,
          prev := 0 } 2).1 = [0, -16385] ∧
      (generate_triangle (Libm.mk Real.pi Real.pi_pos Real.sin)
        { mode := OscillatorMode.OM_SINE, fundamental := 0, phase := 0, phase_step := 3 / 2,
          prev := 0 } 2).2.prev = 3 / 2 ∧
      ¬ ((triangle_sample (Libm.mk Real.pi Real.pi_pos Real.sin)
        { mode := OscillatorMode.OM_SINE, fundamental := 0, phase := 3 / 2,
          phase_step := 3 / 2, prev := 0 }).1 ≤ 1) := by
  obtain ⟨_, _, t2, g1, g2⟩ :=
    overshoot_of_pi_gt_three (Libm.mk Real.pi Real.pi_pos Real.sin) Real.pi_gt_three
  refine ⟨⟨by norm_num, ?_⟩, t2, g1, g2, ?_⟩
  · show (3 / 2 : ℝ) < Real.pi
    linarith [Real.pi_gt_three]
  · rw [t2]
    norm_num

/-! ## Sine scenario -/

/-- While the phase does not reach `2π`, sample `i` of `generate_sine` is the
quantized `sin (phase + i·step)`. -/
theorem sine_no_wrap (m : Libm α) :
    ∀ (i N : Nat) (st : State α), i < N → 0 < st.phase_step →
      st.phase + i * st.phase_step < m.M_2PI →
      (generate_sine m st N).1[i]? =
        some (float_to_int (m.sin (st.phase + i * st.phase_step))) := by
  intro i
  induction i with
  | zero =>
    intro N st hN _ _
    obtain ⟨n, rfl⟩ : ∃ n, N = n + 1 := ⟨N - 1, by omega⟩
    simp [generate_sine, sine_sample]
  | succ i ih =>
    intro N st hN hs0 hlt
    obtain ⟨n, rfl⟩ : ∃ n, N = n + 1 := ⟨N - 1, by omega⟩
    have hi : (0 : α) ≤ (i : α) * st.phase_step :=
      mul_nonneg (Nat.cast_nonneg i) hs0.le
    push_cast at hlt
    have hp : (advance_phase m st).phase = st.phase + st.phase_step := by
      show wrap_phase m (st.phase + st.phase_step) = _
      rw [wrap_phase_lt]
      nlinarith
    have hq : (advance_phase m st).phase_step = st.phase_step := rfl
    have := ih n (advance_phase m st) (by omega) (by rw [hq]; exact hs0)
      (by rw [hp, hq]; linarith)
    simp only [generate_sine, List.getElem?_cons_succ]
    rw [this, hp, hq]
    push_cast
    congr 3
    ring

/-- C10: with the real `sin` and `π`, `samples_per_sec = 44100`, the frequency 440 set
by `init_oscillator` and `phase = 0`, the sample at index 25 of 100 samples of
`generate_sine` is `32767`, hence within 1 of the maximum amplitude. -/
theorem sine_quarter_period :
    (generate_sine (Libm.mk Real.pi Real.pi_pos Real.sin)
      (init_oscillator (Libm.mk Real.pi Real.pi_pos Real.sin) 44100 startup) 100).1[25]? =
        some 32767 ∧
      ∃ x : Int,
        (generate_sine (Libm.mk Real.pi Real.pi_pos Real.sin)
          (init_oscillator (Libm.mk Real.pi Real.pi_pos Real.sin) 44100 startup)
            100).1[25]? = some x ∧ |x - 32767| ≤ 1 := by
  have hstep : (init_oscillator (Libm.mk Real.pi Real.pi_pos Real.sin) 44100 startup).phase_step
      = 2 * Real.pi * (22 / 2205) := by
    simp only [init_oscillator, real_M_2PI]
    norm_num
    ring
  have hphase : (init_oscillator (Libm.mk Real.pi Real.pi_pos Real.sin) 44100
      startup).phase = 0 := rfl
  have hpi := Real.pi_pos
  have key := sine_no_wrap (Libm.mk Real.pi Real.pi_pos Real.sin) 25 100
    (init_oscillator (Libm.mk Real.pi Real.pi_pos Real.sin) 44100 startup) (by norm_num)
    (by rw [hstep]; positivity)
    (by rw [hstep, hphase, real_M_2PI]; push_cast; nlinarith)
  rw [hstep, hphase] at key
  have harg : (0 : ℝ) + ((25 : ℕ) : ℝ) * (2 * Real.pi * (22 / 2205)) =
      Real.pi / 2 - Real.pi / 882 := by
    push_cast
    ring
  rw [harg] at key
  have hsin : Real.sin (Real.pi / 2 - Real.pi / 882) = Real.cos (Real.pi / 882) :=
    Real.sin_pi_div_two_sub _
  have hc1 : Real.cos (Real.pi / 882) ≤ 1 := Real.cos_le_one _
  have hc0 : 1 - (Real.pi / 882) ^ 2 / 2 ≤ Real.cos (Real.pi / 882) :=
    Real.one_sub_sq_div_two_le_cos
  have hpi4 : Real.pi < 4 := Real.pi_lt_four
  have hsmall : (Real.pi / 882) ^ 2 / 2 < 1 / 65535 := by
    have : Real.pi ^ 2 < 16 := by nlinarith
    have e : (Real.pi / 882) ^ 2 / 2 = Real.pi ^ 2 / 1555848 := by ring
    rw [e]
    linarith
  have hfl : ⌊(Real.cos (Real.pi / 882) + 1) * 32767.5 + 0.5⌋ = 65535 := by
    rw [Int.floor_eq_iff]
    constructor
    · push_cast
      norm_num
      linarith
    · push_cast
      norm_num
      linarith
  have hq : float_to_int (Real.cos (Real.pi / 882)) = 32767 := by
    show float_to_int_round (Real.cos (Real.pi / 882)) = 32767
    rw [(round_of_range _ (by linarith) hc1).1, hfl]
    norm_num
  have hres : (generate_sine (Libm.mk Real.pi Real.pi_pos Real.sin)
      (init_oscillator (Libm.mk Real.pi Real.pi_pos Real.sin) 44100 startup) 100).1[25]? =
        some 32767 := by
    rw [key]
    show some (float_to_int (Real.sin (Real.pi / 2 - Real.pi / 882))) = some 32767
    rw [hsin, hq]
  exact ⟨hres, 32767, hres, by norm_num⟩

/-! ## First sine sample -/

/-- The number of samples a sample loop stores. -/
theorem loop_length (g : State α → Nat → List Int × State α) (out : State α → Int)
    (step : State α → State α) (hz : ∀ st, g st 0 = ([], st))
    (hs : ∀ st n, g st (n + 1) = (out st :: (g (step st) n).1, (g (step st) n).2)) :
    ∀ (n : Nat) (st : State α), (g st n).1.length = n := by
  intro n
  induction n with
  | zero =>
    intro st
    rw [hz]
    rfl
  | succ n ih =>
    intro st
    rw [hs]
    simp [ih]

/-- Sample `n` of `generate_sine` is computed from the phase left by the first
`n` samples. -/
theorem sine_nth (m : Libm α) (st : State α) (n N : Nat) (h : n < N) :
    (generate_sine m st N).1[n]? =
      some (float_to_int (m.sin (generate_sine m st n).2.phase)) := by
  obtain ⟨k, rfl⟩ : ∃ k, N = n + (k + 1) := ⟨N - n - 1, by omega⟩
  have hsplit := loop_split (generate_sine m) (fun st => float_to_int (sine_sample m st))
    (advance_phase m) (fun _ => rfl) (fun _ _ => rfl) n (k + 1) st
  have hlen := loop_length (generate_sine m) (fun st => float_to_int (sine_sample m st))
    (advance_phase m) (fun _ => rfl) (fun _ _ => rfl) n st
  rw [hsplit]
  simp only []
  rw [List.getElem?_append_right (by omega), hlen, Nat.sub_self]
  simp [generate_sine, sine_sample]

/-- C11: from `phase = 0` (with `sin 0 = 0`) the first sample written by
`generate_sine` is 0; in general sample `n` uses the phase from before the
advance that follows it, that is the phase left by the first `n` samples. -/
theorem sine_first_sample (m : Libm α) (hsin : m.sin 0 = 0) (st : State α)
    (hp : st.phase = 0) (N : Nat) (hN : 0 < N) :
    (generate_sine m st N).1[0]? = some 0 ∧ float_to_int_round (0 : α) = 0 ∧
      ∀ n : Nat, n < N →
        (generate_sine m st N).1[n]? =
          some (float_to_int (m.sin (generate_sine m st n).2.phase)) := by
  refine ⟨?_, float_to_int_zero, fun n hn => sine_nth m st n N hn⟩
  rw [sine_nth m st 0 N hN]
  show some (float_to_int (m.sin st.phase)) = some 0
  rw [hp, hsin, float_to_int_zero]

/-- Witness for C11: the real `sin`, the variables after `init_oscillator` at
44100 samples per second, 100 samples. -/
theorem sine_first_sample_witness :
    (generate_sine (Libm.mk Real.pi Real.pi_pos Real.sin)
      (init_oscillator (Libm.mk Real.pi Real.pi_pos Real.sin) 44100 startup) 100).1[0]? =
        some 0 :=
  (sine_first_sample (Libm.mk Real.pi Real.pi_pos Real.sin) Real.sin_zero
    (init_oscillator (Libm.mk Real.pi Real.pi_pos Real.sin) 44100 startup) rfl 100
    (by norm_num)).1

/-! ## Dither quantizer -/

/-- C15 (failing input): at `f = 1/2` with the draw `r = 3/10` the code adds the
increment, returning 16384, because it compares `r` with the fractional part
`1/2` of the unscaled sample; the scaled value `16383.25` truncates to 16383
and its fractional part `1/4` is not above `r`, so the claim gives 16383. -/
theorem crand_dither_unscaled_fraction :
    crand_dither (3 / 10 : ℚ) (1 / 2) = 16384 ∧
      ((1 / 2 : ℚ) + 1) * 32767.5 - 32768 = 16383 + 1 / 4 ∧
      trunc (((1 / 2 : ℚ) + 1) * 32767.5 - 32768) = 16383 ∧
      Int.fract (((1 / 2 : ℚ) + 1) * 32767.5 - 32768) = 1 / 4 ∧
      ¬ ((3 / 10 : ℚ) < Int.fract (((1 / 2 : ℚ) + 1) * 32767.5 - 32768)) ∧
      (3 / 10 : ℚ) < 1 / 2 - ((⌊(1 / 2 : ℚ)⌋ : ℤ) : ℚ) := by
  have e : ((1 / 2 : ℚ) + 1) * 32767.5 - 32768 = ((16383 : ℤ) : ℚ) + 1 / 4 := by norm_num
  have hfl : ⌊((16383 : ℤ) : ℚ) + 1 / 4⌋ = 16383 := by
    rw [Int.floor_eq_iff]
    constructor <;> norm_num
  have hfr : Int.fract (((16383 : ℤ) : ℚ) + 1 / 4) = 1 / 4 := by
    rw [Int.fract, hfl]
    norm_num
  have hh : ⌊(1 / 2 : ℚ)⌋ = 0 := by
    rw [Int.floor_eq_iff]
    constructor <;> norm_num
  have ht : trunc (((16383 : ℤ) : ℚ) + 1 / 4) = 16383 := by
    unfold trunc
    rw [if_pos (by norm_num), hfl]
  refine ⟨?_, by rw [e]; norm_num, by rw [e, ht], by rw [e, hfr], by rw [e, hfr]; norm_num,
    by rw [hh]; norm_num⟩
  have e' : ((1 / 2 : ℚ) + 1.0) * 32767.5 - 32768.0 = ((16383 : ℤ) : ℚ) + 1 / 4 := by
    norm_num
  unfold crand_dither
  simp only []
  rw [e', ht, hh, if_pos (by norm_num)]
  unfold to_short
  norm_num

/-! ## Wide kernel -/

/-- The two polynomial branches of `polyblep` as half squares. -/
theorem polyblep_unfold (m : Libm α) (st : State α) (t : α) :
    polyblep m st t =
      if t ≤ st.phase_step / m.M_2PI then -(1 - t / (st.phase_step / m.M_2PI)) ^ 2 / 2
      else if 1 - st.phase_step / m.M_2PI < t then
        ((t - 1) / (st.phase_step / m.M_2PI) + 1) ^ 2 / 2
      else 0 := by
  have e : (1.0 : α) = 1 := by norm_num
  have z : (0.0 : α) = 0 := by norm_num
  have h : (0.5 : α) = 1 / 2 := by norm_num
  unfold polyblep
  simp only [e, z, h, gt_iff_lt]
  by_cases h1 : t ≤ st.phase_step / m.M_2PI
  · rw [if_pos h1, if_pos h1]
    ring
  · rw [if_neg h1, if_neg h1]
    by_cases h2 : 1 - st.phase_step / m.M_2PI < t
    · rw [if_pos h2, if_pos h2]
      ring
    · rw [if_neg h2, if_neg h2]

/-- C16: for `dt = phase_step / 2π` in `(0, 1/2]` the wide kernel `polyblep` is
half the narrow kernel `polyblep_narrow` at every `t` (in particular on
`[0, 1)`), also at `t = dt` where only the wide kernel takes its first branch. -/
theorem polyblep_half_narrow (m : Libm α) (st : State α) (t : α)
    (hd0 : 0 < st.phase_step / m.M_2PI) (hd1 : st.phase_step / m.M_2PI ≤ 1 / 2) :
    polyblep m st t = polyblep_narrow m st t / 2 := by
  rw [polyblep_unfold, polyblep_narrow_unfold]
  rcases lt_trichotomy t (st.phase_step / m.M_2PI) with h | h | h
  · rw [if_pos h.le, if_pos h]
  · have hne : st.phase_step / m.M_2PI ≠ 0 := hd0.ne'
    rw [if_pos h.le, if_neg (by rw [h]; exact lt_irrefl _), if_neg (by rw [h]; linarith), h,
      div_self hne]
    norm_num
  · rw [if_neg (not_le.mpr h), if_neg (not_lt.mpr h.le)]
    by_cases h2 : 1 - st.phase_step / m.M_2PI < t
    · rw [if_pos h2, if_pos h2]
    · rw [if_neg h2, if_neg h2]
      norm_num

/-- Witness for C16 with step 1 against the real `2π`, at `t = 1/4`. -/
theorem polyblep_half_narrow_witness :
    polyblep (Libm.mk Real.pi Real.pi_pos Real.sin)
        { mode := OscillatorMode.OM_SINE, fundamental := 440, phase := 1, phase_step := 1,
          prev := 0 } (1 / 4) =
      polyblep_narrow (Libm.mk Real.pi Real.pi_pos Real.sin)
        { mode := OscillatorMode.OM_SINE, fundamental := 440, phase := 1, phase_step := 1,
          prev := 0 } (1 / 4) / 2 :=
  polyblep_half_narrow (Libm.mk Real.pi Real.pi_pos Real.sin)
    { mode := OscillatorMode.OM_SINE, fundamental := 440, phase := 1, phase_step := 1,
      prev := 0 } (1 / 4)
    (by
      show (0 : ℝ) < 1 / (Libm.mk Real.pi Real.pi_pos Real.sin).M_2PI
      rw [real_M_2PI]
      have := Real.pi_pos
      positivity)
    (by
      show (1 : ℝ) / (Libm.mk Real.pi Real.pi_pos Real.sin).M_2PI ≤ 1 / 2
      rw [real_M_2PI, div_le_iff₀ (by linarith [Real.pi_pos])]
      linarith [Real.pi_gt_three])

/-! ## Frame of the generators -/

/-- Frame of a sample loop: what every iteration keeps, the loop keeps. -/
theorem loop_frame {β : Type} (proj : State α → β) (step : State α → State α)
    (final : State α → Nat → State α)
    (hz : ∀ st, final st 0 = st) (hs : ∀ st n, final st (n + 1) = final (step st) n)
    (hp : ∀ st, proj (step st) = proj st) :
    ∀ (n : Nat) (st : State α), proj (final st n) = proj st := by
  intro n
  induction n with
  | zero =>
    intro st
    rw [hz]
  | succ n ih =>
    intro st
    rw [hs, ih, hp]

/-- C17: for every state and sample count, `generate_sine`, `generate_square`
and `generate_saw` leave `mode`, `fundamental`, `phase_step` and `prev`
unchanged (only `phase` changes), and `generate_triangle` leaves `mode`,
`fundamental` and `phase_step` unchanged (only `phase` and `prev` change). -/
theorem generate_frame (m : Libm α) (st : State α) (N : Nat) :
    ((generate_sine m st N).2.mode = st.mode ∧
        (generate_sine m st N).2.fundamental = st.fundamental ∧
        (generate_sine m st N).2.phase_step = st.phase_step ∧
        (generate_sine m st N).2.prev = st.prev) ∧
      ((generate_square m st N).2.mode = st.mode ∧
        (generate_square m st N).2.fundamental = st.fundamental ∧
        (generate_square m st N).2.phase_step = st.phase_step ∧
        (generate_square m st N).2.prev = st.prev) ∧
      ((generate_saw m st N).2.mode = st.mode ∧
        (generate_saw m st N).2.fundamental = st.fundamental ∧
        (generate_saw m st N).2.phase_step = st.phase_step ∧
        (generate_saw m st N).2.prev = st.prev) ∧
      ((generate_triangle m st N).2.mode = st.mode ∧
        (generate_triangle m st N).2.fundamental = st.fundamental ∧
        (generate_triangle m st N).2.phase_step = st.phase_step) := by
  have a := loop_frame (fun s : State α => (s.mode, s.fundamental, s.phase_step, s.prev))
    (advance_phase m) (fun st n => (generate_sine m st n).2) (fun _ => rfl) (fun _ _ => rfl)
    (fun _ => rfl) N st
  have b := loop_frame (fun s : State α => (s.mode, s.fundamental, s.phase_step, s.prev))
    (advance_phase m) (fun st n => (generate_square m st n).2) (fun _ => rfl)
    (fun _ _ => rfl) (fun _ => rfl) N st
  have c := loop_frame (fun s : State α => (s.mode, s.fundamental, s.phase_step, s.prev))
    (advance_phase m) (fun st n => (generate_saw m st n).2) (fun _ => rfl) (fun _ _ => rfl)
    (fun _ => rfl) N st
  have d := loop_frame (fun s : State α => (s.mode, s.fundamental, s.phase_step))
    (fun st => advance_phase m { st with prev := (triangle_sample m st).2 })
    (fun st n => (generate_triangle m st n).2) (fun _ => rfl) (fun _ _ => rfl)
    (fun _ => rfl) N st
  simp only [Prod.mk.injEq] at a b c d
  exact ⟨a, b, c, d⟩

/-! ## Symmetry of the square and order of the quantizer -/

/-- C19: `float_to_int_round` is monotone non-decreasing on `[-1, 1]`. -/
theorem float_to_int_round_mono (f g : α) (hf : -1 ≤ f) (hfg : f ≤ g) (hg : g ≤ 1) :
    float_to_int_round f ≤ float_to_int_round g := by
  rw [(round_of_range f hf (hfg.trans hg)).1, (round_of_range g (hf.trans hfg) hg).1]
  have hx : (f + 1) * 32767.5 + 0.5 ≤ (g + 1) * 32767.5 + 0.5 := by
    have : (f + 1) * 32767.5 ≤ (g + 1) * 32767.5 :=
      mul_le_mul_of_nonneg_right (by linarith) (by norm_num)
    linarith
  have := Int.floor_mono hx
  omega

/-- Witness for C19 at the samples `-1/2 ≤ 1/2`. -/
theorem float_to_int_round_mono_witness :
    float_to_int_round (-1 / 2 : ℚ) ≤ float_to_int_round (1 / 2 : ℚ) :=
  float_to_int_round_mono (-1 / 2 : ℚ) (1 / 2) (by norm_num) (by norm_num) (by norm_num)

/-! ## WAV writer: buffer and stream -/

/-- An `int16_t` array of `n` elements occupies `2n` bytes. -/
theorem sample_bytes_length (s : List Int) : (sample_bytes s).length = 2 * s.length := by
  induction s with
  | nil => rfl
  | cons x xs ih =>
    simp only [sample_bytes, int16_bytes, List.length_append, List.length_cons,
      List.length_nil, ih]
    omega

/-- The bytes of two arrays laid out one after the other. -/
theorem sample_bytes_append (a b : List Int) :
    sample_bytes (a ++ b) = sample_bytes a ++ sample_bytes b := by
  induction a with
  | nil => rfl
  | cons x xs ih => simp [sample_bytes, ih]

/-- Writing at the end of the file appends. -/
theorem fwrite_at_end (d : List Nat) (f : FILE) (h : f.pos = f.bytes.length) :
    (fwrite d f).bytes = f.bytes ++ d ∧ (fwrite d f).pos = (fwrite d f).bytes.length := by
  unfold fwrite
  simp [h]

/-- Writing over the start of existing contents: after the bytes `h` already
written over `all`, writing `d` replaces the next `d.length` bytes. -/
theorem fwrite_over (d h all : List Nat) (f : FILE)
    (hb : f.bytes = h ++ all.drop h.length) (hp : f.pos = h.length) :
    (fwrite d f).bytes = (h ++ d) ++ all.drop (h ++ d).length ∧
      (fwrite d f).pos = (h ++ d).length := by
  unfold fwrite
  simp only [hb, hp, List.length_append]
  refine ⟨?_, trivial⟩
  rw [List.take_left', List.drop_append, List.drop_drop]
  · have : h.length - (h.length + (List.drop h.length all).length) = 0 := by omega
    rw [this]
    simp [Nat.add_comm]
  · rfl

/-- Inside the copied range `memcpy` stores the source bytes, outside it keeps
the destination. -/
theorem memcpy_apply (dest : Nat → Nat) (i : Nat) (b : List Nat) :
    (∀ j, j < b.length → b[j]? = some (memcpy dest i b (i + j))) ∧
      ∀ j, (j < i ∨ i + b.length ≤ j) → memcpy dest i b j = dest j := by
  constructor
  · intro j hj
    unfold memcpy
    rw [if_pos ⟨by omega, by omega⟩, Nat.add_sub_cancel_left, List.getD_eq_getElem?_getD,
      List.getElem?_eq_getElem hj]
    rfl
  · intro j hj
    unfold memcpy
    rw [if_neg (by omega)]

/-- The buffer contents after `memcpy` at the fill index. -/
theorem memcpy_range (dest : Nat → Nat) (i : Nat) (b : List Nat) :
    (List.range (i + b.length)).map (memcpy dest i b) = (List.range i).map dest ++ b := by
  obtain ⟨hin, hout⟩ := memcpy_apply dest i b
  rw [List.range_add, List.map_append, List.map_map]
  congr 1
  · apply List.map_congr_left
    intro j hj
    exact hout j (Or.inl (List.mem_range.mp hj))
  · apply List.ext_getElem?
    intro j
    by_cases hj : j < b.length
    · rw [hin j hj, List.getElem?_map, List.getElem?_range hj]
      rfl
    · rw [List.getElem?_eq_none (by simpa using hj), List.getElem?_eq_none (by simpa using hj)]

/-- The result of a `write` that fits the buffer, from a fill index inside the
buffer: an optional `flush`, the copy at the fill index, the new fill index. -/
theorem write_fits (f : FILE) (b : List Nat) (g : Writer) (hi : g.buffer_i < BUFFER_SIZE)
    (hn : b.length < BUFFER_SIZE) :
    write f b g =
      Except.ok
        (if g.buffer_i + b.length ≥ BUFFER_SIZE then
          ((flush f g).1,
            { buffer := memcpy g.buffer 0 b, buffer_i := b.length,
              num_sample_bytes_written := g.num_sample_bytes_written })
        else
          (f,
            { buffer := memcpy g.buffer g.buffer_i b, buffer_i := g.buffer_i + b.length,
              num_sample_bytes_written := g.num_sample_bytes_written })) := by
  unfold BUFFER_SIZE at hi hn
  have hmod : (g.buffer_i + b.length) % 2 ^ 64 = g.buffer_i + b.length :=
    Nat.mod_eq_of_lt (by omega)
  have hmod0 : (0 + b.length) % 2 ^ 64 = b.length := by
    rw [Nat.zero_add]
    exact Nat.mod_eq_of_lt (by omega)
  unfold write
  simp only [hmod]
  rw [if_neg (by unfold BUFFER_SIZE; omega)]
  by_cases hfl : g.buffer_i + b.length ≥ BUFFER_SIZE
  · rw [if_pos hfl, if_pos hfl]
    simp only [flush]
    rw [if_pos (by unfold BUFFER_SIZE; omega), hmod0]
  · rw [if_neg hfl, if_neg hfl]
    simp only []
    rw [if_pos (by unfold BUFFER_SIZE at hfl ⊢; omega), hmod]

/-- A `write` leaves `num_sample_bytes_written` alone. -/
theorem write_keeps_count (f f' : FILE) (b : List Nat) (g g' : Writer)
    (h : write f b g = Except.ok (f', g')) :
    g'.num_sample_bytes_written = g.num_sample_bytes_written := by
  unfold write at h
  simp only [] at h
  split_ifs at h with h1 h2 h3
  · cases h
    rfl
  · cases h
    rfl

/-- The exit test of `write`. -/
theorem write_exit_iff (f : FILE) (b : List Nat) (g : Writer) :
    write f b g = Except.error (Fault.exit 1) ↔ b.length ≥ BUFFER_SIZE := by
  unfold write
  simp only []
  constructor
  · intro h
    by_contra hc
    rw [if_neg hc] at h
    split_ifs at h <;> cases h
  · intro h
    rw [if_pos h]

/-- C20: `write` exits exactly when `num_bytes ≥ BUFFER_SIZE`; from a fill index
`buffer_i < BUFFER_SIZE` every smaller write returns, having copied its bytes to
`buffer[i .. i + num_bytes)` with `i + num_bytes ≤ BUFFER_SIZE`, where `i` is 0
after the flush made when `buffer_i + num_bytes ≥ BUFFER_SIZE` and `buffer_i`
otherwise; it touches no other byte of the buffer and leaves
`buffer_i = i + num_bytes < BUFFER_SIZE`; `flush` resets `buffer_i` to 0. -/
theorem write_in_bounds (f : FILE) (b : List Nat) (g : Writer) :
    (write f b g = Except.error (Fault.exit 1) ↔ b.length ≥ BUFFER_SIZE) ∧
      (g.buffer_i < BUFFER_SIZE → b.length < BUFFER_SIZE →
        ∃ f' g', write f b g = Except.ok (f', g') ∧
          f' = (if g.buffer_i + b.length ≥ BUFFER_SIZE then (flush f g).1 else f) ∧
          (if g.buffer_i + b.length ≥ BUFFER_SIZE then 0 else g.buffer_i) + b.length ≤
            BUFFER_SIZE ∧
          (∀ j, j < b.length →
            b[j]? = some (g'.buffer
              ((if g.buffer_i + b.length ≥ BUFFER_SIZE then 0 else g.buffer_i) + j))) ∧
          (∀ j, (j < (if g.buffer_i + b.length ≥ BUFFER_SIZE then 0 else g.buffer_i) ∨
              (if g.buffer_i + b.length ≥ BUFFER_SIZE then 0 else g.buffer_i) + b.length ≤ j) →
            g'.buffer j = g.buffer j) ∧
          g'.buffer_i =
            (if g.buffer_i + b.length ≥ BUFFER_SIZE then 0 else g.buffer_i) + b.length ∧
          g'.buffer_i < BUFFER_SIZE) ∧
      (flush f g).2.buffer_i = 0 := by
  refine ⟨write_exit_iff f b g, fun hi hn => ?_, rfl⟩
  rw [write_fits f b g hi hn]
  by_cases hfl : g.buffer_i + b.length ≥ BUFFER_SIZE
  · simp only [if_pos hfl]
    obtain ⟨hin, hout⟩ := memcpy_apply g.buffer 0 b
    exact ⟨_, _, rfl, rfl, by omega, hin, hout, (Nat.zero_add _).symm, hn⟩
  · simp only [if_neg hfl]
    obtain ⟨hin, hout⟩ := memcpy_apply g.buffer g.buffer_i b
    exact ⟨_, _, rfl, rfl, by omega, hin, hout, rfl, not_le.mp hfl⟩

/-- Witness for C20: a two-byte write into the empty buffer. -/
theorem write_in_bounds_witness :
    ∃ f' g', write fopen_wb [1, 2]
        { buffer := fun _ => 0, buffer_i := 0, num_sample_bytes_written := 0 } =
          Except.ok (f', g') ∧ g'.buffer_i < BUFFER_SIZE := by
  obtain ⟨f', g', h, _, _, _, _, _, hlt⟩ :=
    (write_in_bounds fopen_wb [1, 2]
      { buffer := fun _ => 0, buffer_i := 0, num_sample_bytes_written := 0 }).2.1
      (by decide) (by decide)
  exact ⟨f', g', h, hlt⟩

/-- A `write` that fits appends its bytes to the stream formed by the file and
the filled part of the buffer. -/
theorem write_stream (f : FILE) (b : List Nat) (g : Writer) (all : List Nat)
    (hpos : f.pos = f.bytes.length)
    (hall : f.bytes ++ (List.range g.buffer_i).map g.buffer = all)
    (hi : g.buffer_i < BUFFER_SIZE) (hn : b.length < BUFFER_SIZE) :
    ∃ f' g', write f b g = Except.ok (f', g') ∧ f'.pos = f'.bytes.length ∧
      f'.bytes ++ (List.range g'.buffer_i).map g'.buffer = all ++ b ∧
      g'.buffer_i < BUFFER_SIZE ∧
      g'.num_sample_bytes_written = g.num_sample_bytes_written := by
  rw [write_fits f b g hi hn]
  by_cases hfl : g.buffer_i + b.length ≥ BUFFER_SIZE
  · rw [if_pos hfl]
    obtain ⟨hb, hp⟩ := fwrite_at_end ((List.range g.buffer_i).map g.buffer) f hpos
    have hr := memcpy_range g.buffer 0 b
    rw [Nat.zero_add] at hr
    refine ⟨_, _, rfl, hp, ?_, hn, rfl⟩
    show (fwrite _ f).bytes ++ (List.range b.length).map (memcpy g.buffer 0 b) = all ++ b
    rw [hb, hall, hr]
    simp
  · rw [if_neg hfl]
    refine ⟨_, _, rfl, hpos, ?_, not_le.mp hfl, rfl⟩
    show f.bytes ++ (List.range (g.buffer_i + b.length)).map (memcpy g.buffer g.buffer_i b) =
      all ++ b
    rw [memcpy_range, ← List.append_assoc, hall]

/-- A `write_samples` call that fits appends the bytes of its samples to the
stream and adds their number to `num_sample_bytes_written`. -/
theorem write_samples_stream (f : FILE) (s : List Int) (g : Writer) (all : List Nat)
    (hpos : f.pos = f.bytes.length)
    (hall : f.bytes ++ (List.range g.buffer_i).map g.buffer = all)
    (hi : g.buffer_i < BUFFER_SIZE) (hn : 2 * s.length < BUFFER_SIZE) :
    ∃ f' g', write_samples f s g = Except.ok (f', g') ∧ f'.pos = f'.bytes.length ∧
      f'.bytes ++ (List.range g'.buffer_i).map g'.buffer = all ++ sample_bytes s ∧
      g'.buffer_i < BUFFER_SIZE ∧
      g'.num_sample_bytes_written = (g.num_sample_bytes_written + 2 * s.length) % 2 ^ 64 := by
  have hlen := sample_bytes_length s
  have hnb : s.length * 2 % 2 ^ 64 = 2 * s.length := by
    unfold BUFFER_SIZE at hn
    omega
  have htake : (sample_bytes s).take (2 * s.length) = sample_bytes s := by
    rw [← hlen, List.take_length]
  obtain ⟨f', g', hw, h1, h2, h3, h4⟩ :=
    write_stream f (sample_bytes s) g all hpos hall hi (by rw [hlen]; exact hn)
  unfold write_samples
  simp only [hnb, htake, hw]
  exact ⟨_, _, rfl, h1, h2, h3, by rw [h4]⟩

/-- Consecutive `write_samples` calls that fit all return; the stream grows by
the bytes of all samples, in order, and the byte count by their number. -/
theorem write_samples_seq_stream :
    ∀ (blocks : List (List Int)) (f : FILE) (g : Writer) (all : List Nat),
      (∀ s ∈ blocks, 2 * s.length < BUFFER_SIZE) → f.pos = f.bytes.length →
      f.bytes ++ (List.range g.buffer_i).map g.buffer = all → g.buffer_i < BUFFER_SIZE →
      ∃ f' g', write_samples_seq f g blocks = Except.ok (f', g') ∧
        f'.pos = f'.bytes.length ∧
        f'.bytes ++ (List.range g'.buffer_i).map g'.buffer =
          all ++ sample_bytes blocks.flatten ∧
        g'.buffer_i < BUFFER_SIZE := by
  intro blocks
  induction blocks with
  | nil =>
    intro f g all _ hpos hall hi
    exact ⟨f, g, rfl, hpos, by simpa [sample_bytes] using hall, hi⟩
  | cons s rest ih =>
    intro f g all hfit hpos hall hi
    obtain ⟨f1, g1, hw, h1, h2, h3, _⟩ :=
      write_samples_stream f s g all hpos hall hi (hfit s (List.mem_cons_self _ _))
    obtain ⟨f2, g2, hw2, k1, k2, k3⟩ :=
      ih f1 g1 (all ++ sample_bytes s) (fun x hx => hfit x (List.mem_cons_of_mem _ hx))
        h1 h2 h3
    refine ⟨f2, g2, ?_, k1, ?_, k3⟩
    · simp only [write_samples_seq, hw, hw2]
    · rw [k2, List.flatten_cons, sample_bytes_append, List.append_assoc]

/-- Whenever consecutive `write_samples` calls return, the byte count has grown
by twice the number of samples (modulo `2^64`). -/
theorem write_samples_seq_count :
    ∀ (blocks : List (List Int)) (f f' : FILE) (g g' : Writer),
      write_samples_seq f g blocks = Except.ok (f', g') →
      g'.num_sample_bytes_written % 2 ^ 64 =
        (g.num_sample_bytes_written + 2 * (blocks.map List.length).sum) % 2 ^ 64 := by
  intro blocks
  induction blocks with
  | nil =>
    intro f f' g g' h
    simp only [write_samples_seq] at h
    cases h
    simp
  | cons s rest ih =>
    intro f f' g g' h
    simp only [write_samples_seq] at h
    cases hw : write_samples f s g with
    | error e =>
      rw [hw] at h
      cases h
    | ok r =>
      obtain ⟨f1, g1⟩ := r
      rw [hw] at h
      have h2 := ih f1 f' g1 g' h
      unfold write_samples at hw
      simp only [] at hw
      cases hww : write f (List.take (s.length * 2 % 2 ^ 64) (sample_bytes s)) g with
      | error e =>
        rw [hww] at hw
        cases hw
      | ok r0 =>
        obtain ⟨f0, g0⟩ := r0
        rw [hww] at hw
        have hk := write_keeps_count f f0 _ g g0 hww
        cases hw
        simp only [List.map_cons, List.sum_cons] at h2 ⊢
        rw [h2]
        simp only [hk]
        omega

/-- A chunk header with a four-character name has 8 bytes. -/
theorem riff_chunk_length (c : riff_chunk) (h : c.name.length = 4) :
    c.to_bytes.length = 8 := by
  unfold riff_chunk.to_bytes u32_bytes
  rw [List.length_append, List.length_take, h]
  rfl

/-- The header written by `write_wav_header` has 44 bytes. -/
theorem header_bytes_length (g : Writer) : (header_bytes g).length = 44 := by
  have h1 := riff_chunk_length (write_wav_header_locals g).riff_chunk rfl
  have h2 := riff_chunk_length (write_wav_header_locals g).fmt_chunk rfl
  have h3 := riff_chunk_length (write_wav_header_locals g).data_chunk rfl
  have h4 : (write_wav_header_locals g).wav.to_bytes.length = 4 := rfl
  have h5 : (write_wav_header_locals g).fmt.to_bytes.length = 16 := rfl
  unfold header_bytes
  simp only [List.length_append, h1, h2, h3, h4, h5]

/-- The file left by `write_wav_header`: the 44 header bytes, written from
offset 0 over the stream, followed by what the stream holds from offset 44. -/
theorem write_wav_header_file (f : FILE) (g : Writer) (all : List Nat)
    (hpos : f.pos = f.bytes.length)
    (hall : f.bytes ++ (List.range g.buffer_i).map g.buffer = all) :
    (write_wav_header f g).1.bytes = header_bytes g ++ all.drop 44 := by
  obtain ⟨hb, _⟩ := fwrite_at_end ((List.range g.buffer_i).map g.buffer) f hpos
  rw [hall] at hb
  have h0 : (fseek_set (flush f g).1 0).bytes = [] ++ all.drop ([] : List Nat).length := by
    show (fwrite _ f).bytes = _
    rw [hb]
    rfl
  have p0 : (fseek_set (flush f g).1 0).pos = ([] : List Nat).length := rfl
  obtain ⟨h1, p1⟩ := fwrite_over (write_wav_header_locals g).riff_chunk.to_bytes _ all _ h0 p0
  obtain ⟨h2, p2⟩ := fwrite_over (write_wav_header_locals g).wav.to_bytes _ all _ h1 p1
  obtain ⟨h3, p3⟩ := fwrite_over (write_wav_header_locals g).fmt_chunk.to_bytes _ all _ h2 p2
  obtain ⟨h4, p4⟩ := fwrite_over (write_wav_header_locals g).fmt.to_bytes _ all _ h3 p3
  obtain ⟨h5, _⟩ := fwrite_over (write_wav_header_locals g).data_chunk.to_bytes _ all _ h4 p4
  have hh : [] ++ (write_wav_header_locals g).riff_chunk.to_bytes ++
      (write_wav_header_locals g).wav.to_bytes ++
      (write_wav_header_locals g).fmt_chunk.to_bytes ++
      (write_wav_header_locals g).fmt.to_bytes ++
      (write_wav_header_locals g).data_chunk.to_bytes = header_bytes g := by
    simp [header_bytes]
  rw [hh, header_bytes_length] at h5
  exact h5

/-! ## WAV writer: header -/

/-- A `write_samples` call that fits returns, with the fill index still inside
the buffer. -/
theorem write_samples_returns (f : FILE) (s : List Int) (g : Writer)
    (hi : g.buffer_i < BUFFER_SIZE) (hn : 2 * s.length < BUFFER_SIZE) :
    ∃ f' g', write_samples f s g = Except.ok (f', g') ∧ g'.buffer_i < BUFFER_SIZE := by
  have hlen := sample_bytes_length s
  have hnb : s.length * 2 % 2 ^ 64 = 2 * s.length := by
    unfold BUFFER_SIZE at hn
    omega
  have htake : (sample_bytes s).take (2 * s.length) = sample_bytes s := by
    rw [← hlen, List.take_length]
  have hw := write_fits f (sample_bytes s) g hi (by rw [hlen]; exact hn)
  unfold write_samples
  simp only [hnb, htake, hw]
  by_cases hfl : g.buffer_i + (sample_bytes s).length ≥ BUFFER_SIZE
  · simp only [if_pos hfl]
    exact ⟨_, _, rfl, by rw [hlen]; exact hn⟩
  · simp only [if_neg hfl]
    exact ⟨_, _, rfl, not_le.mp hfl⟩

/-- Consecutive `write_samples` calls that fit all return. -/
theorem write_samples_seq_returns :
    ∀ (blocks : List (List Int)) (f : FILE) (g : Writer),
      (∀ s ∈ blocks, 2 * s.length < BUFFER_SIZE) → g.buffer_i < BUFFER_SIZE →
      ∃ f' g', write_samples_seq f g blocks = Except.ok (f', g') := by
  intro blocks
  induction blocks with
  | nil =>
    intro f g _ _
    exact ⟨f, g, rfl⟩
  | cons s rest ih =>
    intro f g hfit hi
    obtain ⟨f1, g1, hw, h1⟩ :=
      write_samples_returns f s g hi (hfit s (List.mem_cons_self _ _))
    obtain ⟨f2, g2, hw2⟩ := ih f1 g1 (fun x hx => hfit x (List.mem_cons_of_mem _ hx)) h1
    exact ⟨f2, g2, by simp only [write_samples_seq, hw, hw2]⟩

/-- The size that `write_wav_header` declares for the `data` chunk after calls
that started from a zero byte count and whose samples occupy fewer than `2^32`
bytes. -/
theorem data_chunk_of_seq (blocks : List (List Int)) (f f' : FILE) (g g' : Writer)
    (h0 : g.num_sample_bytes_written = 0)
    (htot : 2 * (blocks.map List.length).sum < 2 ^ 32)
    (h : write_samples_seq f g blocks = Except.ok (f', g')) :
    (write_wav_header_locals g').data_chunk.num_bytes = 2 * (blocks.map List.length).sum := by
  have hc := write_samples_seq_count blocks f f' g g' h
  rw [h0] at hc
  show g'.num_sample_bytes_written % 2 ^ 32 = _
  omega

/-- C12 (failing input): one block of the 23 samples `1, ..., 23` written to an
empty file and followed by `write_wav_header`.  The header declares 46 data
bytes, but it has been written over the first 44 sample bytes: the file is the
header followed by the two bytes of the last sample only, not by the 46 sample
bytes. -/
theorem header_overwrites_samples :
    ∃ f g, write_samples_seq fopen_wb
        { buffer := fun _ => 0, buffer_i := 0, num_sample_bytes_written := 0 }
        [[1, 2, 3, 4, 5, 6, 7, 8, 9, 10, 11, 12, 13, 14, 15, 16, 17, 18, 19, 20, 21, 22, 23]] =
          Except.ok (f, g) ∧
      (write_wav_header_locals g).data_chunk.num_bytes = 46 ∧
      (write_wav_header f g).1.bytes = header_bytes g ++ [23, 0] ∧
      (write_wav_header f g).1.bytes.length = 46 ∧
      (write_wav_header f g).1.bytes ≠
        header_bytes g ++
          sample_bytes
            [1, 2, 3, 4, 5, 6, 7, 8, 9, 10, 11, 12, 13, 14, 15, 16, 17, 18, 19, 20, 21, 22, 23] := by
  obtain ⟨f, g, hs, hpos, hall, _⟩ := write_samples_seq_stream
    [[1, 2, 3, 4, 5, 6, 7, 8, 9, 10, 11, 12, 13, 14, 15, 16, 17, 18, 19, 20, 21, 22, 23]]
    fopen_wb { buffer := fun _ => 0, buffer_i := 0, num_sample_bytes_written := 0 } []
    (by decide) rfl rfl (by decide)
  have hd := data_chunk_of_seq _ _ f _ g rfl (by decide) hs
  have hfile := write_wav_header_file f g _ hpos hall
  have hdrop : List.drop 44 ([] ++ sample_bytes (List.flatten
      [[1, 2, 3, 4, 5, 6, 7, 8, 9, 10, 11, 12, 13, 14, 15, 16, 17, 18, 19, 20, 21, 22, 23]])) =
      [23, 0] := by decide
  rw [hdrop] at hfile
  refine ⟨f, g, hs, hd, hfile, ?_, ?_⟩
  · rw [hfile, List.length_append, header_bytes_length]
    rfl
  · rw [hfile]
    intro hc
    have := List.append_cancel_left hc
    revert this
    decide

/-- The RIFF size computed by `write_wav_header`: the five `sizeof` terms add
up to 44. -/
theorem riff_num_bytes_eq (g : Writer) :
    (write_wav_header_locals g).riff_chunk.num_bytes =
      (44 + (write_wav_header_locals g).data_chunk.num_bytes) % 2 ^ 32 := rfl

/-- C13 (failing input): after four blocks of 44100 samples, the authors' example
of `0x056220` data bytes, `write_wav_header` computes the RIFF size `0x05624C`
(`44 + D`), not `0x056244` (`36 + D`, the file size minus 8) of the size comment. -/
theorem riff_size_counts_own_header :
    ∃ f g, write_samples_seq fopen_wb
        { buffer := fun _ => 0, buffer_i := 0, num_sample_bytes_written := 0 }
        (List.replicate 4 (List.replicate 44100 0)) = Except.ok (f, g) ∧
      (write_wav_header_locals g).data_chunk.num_bytes = 0x056220 ∧
      (write_wav_header_locals g).riff_chunk.num_bytes = 0x05624C ∧
      (write_wav_header_locals g).riff_chunk.num_bytes ≠
        36 + (write_wav_header_locals g).data_chunk.num_bytes ∧
      36 + (write_wav_header_locals g).data_chunk.num_bytes = 0x056244 := by
  have hsum : ((List.replicate 4 (List.replicate 44100 (0 : Int))).map List.length).sum =
      176400 := by
    rw [List.map_replicate, List.length_replicate, List.sum_replicate]
    rfl
  have hfit : ∀ s ∈ List.replicate 4 (List.replicate 44100 (0 : Int)),
      2 * s.length < BUFFER_SIZE := by
    intro s hs
    rw [List.eq_of_mem_replicate hs, List.length_replicate]
    decide
  obtain ⟨f, g, hs⟩ := write_samples_seq_returns _ fopen_wb
    { buffer := fun _ => 0, buffer_i := 0, num_sample_bytes_written := 0 } hfit (by decide)
  have hd := data_chunk_of_seq _ _ f _ g rfl (by rw [hsum]; norm_num) hs
  rw [hsum] at hd
  refine ⟨f, g, hs, hd, ?_, ?_, ?_⟩
  · rw [riff_num_bytes_eq, hd]
    norm_num
  · rw [riff_num_bytes_eq, hd]
    norm_num
  · rw [hd]

/-! ## Binary64 rounding -/

open Binary64

/-- Rounding to nearest lands on the floor or on the next integer. -/
theorem rne_floor (x : ℚ) : ⌊x⌋ ≤ rne x ∧ rne x ≤ ⌊x⌋ + 1 := by
  unfold rne
  split_ifs <;> omega

/-- Rounding to nearest moves a value by at most one half. -/
theorem rne_error (x : ℚ) : |(rne x : ℚ) - x| ≤ 1 / 2 := by
  have h0 := Int.floor_le x
  have h1 := Int.lt_floor_add_one x
  unfold rne
  rw [abs_le]
  split_ifs with a b c
  · constructor <;> linarith
  · push_cast
    constructor <;> linarith
  · constructor <;> linarith
  · push_cast
    constructor <;> linarith

/-- An integer rounds to itself. -/
theorem rne_intCast (n : ℤ) : rne (n : ℚ) = n := by
  unfold rne
  rw [Int.floor_intCast, if_pos (by norm_num)]

/-- Rounding to nearest is monotone. -/
theorem rne_mono (x y : ℚ) (h : x ≤ y) : rne x ≤ rne y := by
  have hf : ⌊x⌋ ≤ ⌊y⌋ := Int.floor_mono h
  rcases hf.lt_or_eq with hlt | heq
  · have := (rne_floor x).2
    have := (rne_floor y).1
    omega
  · unfold rne
    rw [heq]
    have hxy : x - ⌊y⌋ ≤ y - ⌊y⌋ := by linarith
    split_ifs <;> first | omega | (exfalso; linarith)

/-- A non-negative value rounds to a non-negative integer. -/
theorem rne_nonneg (x : ℚ) (h : 0 ≤ x) : 0 ≤ rne x :=
  le_trans (Int.floor_nonneg.mpr h) (rne_floor x).1

/-- The binade of a positive rational. -/
theorem log_two_eq (x : ℚ) (e : ℤ) (h0 : (2 : ℚ) ^ e ≤ x) (h1 : x < (2 : ℚ) ^ (e + 1)) :
    Int.log 2 x = e := by
  have hx : 0 < x := lt_of_lt_of_le (by positivity) h0
  have a : e ≤ Int.log 2 x := by
    rw [← Int.zpow_le_iff_le_log (by norm_num) hx]
    exact_mod_cast h0
  have b : Int.log 2 x < e + 1 := by
    rw [← Int.lt_zpow_iff_log_lt (by norm_num) hx]
    exact_mod_cast h1
  omega

/-- The last-bit exponent in a normal binade. -/
theorem ulp_exp_eq (x : ℚ) (e : ℤ) (he : -1022 ≤ e) (h0 : (2 : ℚ) ^ e ≤ |x|)
    (h1 : |x| < (2 : ℚ) ^ (e + 1)) : ulp_exp x = e - 52 := by
  unfold ulp_exp
  rw [log_two_eq |x| e h0 h1, max_eq_left he]

/-- The rounding of a value whose binade and rounded significand are known. -/
theorem rd_eq (x : ℚ) (e n : ℤ) (he : -1022 ≤ e) (h0 : (2 : ℚ) ^ e ≤ |x|)
    (h1 : |x| < (2 : ℚ) ^ (e + 1)) (hn : rne (x / 2 ^ (e - 52)) = n) :
    rd x = (n : ℚ) * 2 ^ (e - 52) := by
  unfold rd
  rw [ulp_exp_eq x e he h0 h1, hn]

/-- A value with at most 53 significant bits in a normal binade is a `double`. -/
theorem rd_fix (x : ℚ) (e n : ℤ) (he : -1022 ≤ e) (h0 : (2 : ℚ) ^ e ≤ |x|)
    (h1 : |x| < (2 : ℚ) ^ (e + 1)) (hn : x = (n : ℚ) * 2 ^ (e - 52)) : rd x = x := by
  have hq : (0 : ℚ) < 2 ^ (e - 52) := by positivity
  have : x / 2 ^ (e - 52) = (n : ℚ) := by
    rw [hn]
    field_simp
  rw [rd_eq x e n he h0 h1 (by rw [this, rne_intCast]), ← hn]

/-- Zero is a `double`. -/
theorem rd_zero : rd 0 = 0 := by
  unfold rd
  simp [rne_intCast, rne]

/-- Rounding keeps the sign of a non-negative value. -/
theorem rd_nonneg (x : ℚ) (h : 0 ≤ x) : 0 ≤ rd x := by
  unfold rd
  have hq : (0 : ℚ) < 2 ^ ulp_exp x := by positivity
  have := rne_nonneg (x / 2 ^ ulp_exp x) (div_nonneg h hq.le)
  have h2 : (0 : ℚ) ≤ (rne (x / 2 ^ ulp_exp x) : ℚ) := by exact_mod_cast this
  positivity

/-- The last-bit exponent grows with the magnitude. -/
theorem ulp_exp_mono (x y : ℚ) (hx : 0 < x) (h : x ≤ y) : ulp_exp x ≤ ulp_exp y := by
  unfold ulp_exp
  have hy : 0 < y := lt_of_lt_of_le hx h
  rw [abs_of_pos hx, abs_of_pos hy]
  have := Int.log_mono_right (b := 2) hx h
  have := max_le_max this (le_refl (-1022 : ℤ))
  omega

/-- A positive value scaled by its last-bit exponent stays below `2^53`. -/
theorem scaled_lt (x : ℚ) (hx : 0 < x) : x / 2 ^ ulp_exp x < 2 ^ (53 : ℤ) := by
  have hq : (0 : ℚ) < 2 ^ ulp_exp x := by positivity
  rw [div_lt_iff₀ hq, ← zpow_add₀ (by norm_num : (2 : ℚ) ≠ 0)]
  have h1 := Int.lt_zpow_succ_log_self (b := 2) (by norm_num) x
  have h2 : Int.log 2 x + 1 ≤ 53 + ulp_exp x := by
    unfold ulp_exp
    rw [abs_of_pos hx]
    have := le_max_left (Int.log 2 x) (-1022)
    omega
  have h3 : ((2 : ℕ) : ℚ) ^ (Int.log 2 x + 1) ≤ (2 : ℚ) ^ (53 + ulp_exp x) := by
    push_cast
    exact zpow_le_zpow_right₀ (by norm_num) h2
  exact lt_of_lt_of_le h1 h3

/-- Rounding never exceeds the top of the binade. -/
theorem rd_le_top (x : ℚ) (hx : 0 < x) : rd x ≤ 2 ^ (ulp_exp x + 53) := by
  have hq : (0 : ℚ) < 2 ^ ulp_exp x := by positivity
  have h1 : rne (x / 2 ^ ulp_exp x) ≤ 2 ^ 53 := by
    have := rne_mono _ _ (scaled_lt x hx).le
    have e : ((2 : ℚ) ^ (53 : ℤ)) = (((2 : ℤ) ^ 53 : ℤ) : ℚ) := by norm_num
    rw [e, rne_intCast] at this
    exact this
  have h2 : (rne (x / 2 ^ ulp_exp x) : ℚ) ≤ 2 ^ (53 : ℤ) := by
    have : ((rne (x / 2 ^ ulp_exp x) : ℤ) : ℚ) ≤ (((2 : ℤ) ^ 53 : ℤ) : ℚ) := by exact_mod_cast h1
    norm_num at this ⊢
    exact this
  unfold rd
  rw [add_comm, zpow_add₀ (by norm_num : (2 : ℚ) ≠ 0)]
  exact mul_le_mul_of_nonneg_right h2 hq.le

/-- In a normal binade rounding never falls below the bottom of the binade. -/
theorem rd_ge_bottom (y : ℚ) (hy : 0 < y) (hn : -1022 < ulp_exp y + 52) :
    2 ^ (ulp_exp y + 52) ≤ rd y := by
  have hq : (0 : ℚ) < 2 ^ ulp_exp y := by positivity
  have hlog : ulp_exp y + 52 = Int.log 2 y := by
    unfold ulp_exp at hn ⊢
    rw [abs_of_pos hy] at hn ⊢
    rcases le_total (Int.log 2 y) (-1022) with h | h
    · rw [max_eq_right h] at hn
      omega
    · rw [max_eq_left h]
      omega
  have h0 := Int.zpow_log_le_self (b := 2) (by norm_num) hy
  have h1 : (2 : ℚ) ^ (52 : ℤ) ≤ y / 2 ^ ulp_exp y := by
    rw [le_div_iff₀ hq, ← zpow_add₀ (by norm_num : (2 : ℚ) ≠ 0), add_comm, hlog]
    exact_mod_cast h0
  have h2 : (2 : ℤ) ^ 52 ≤ rne (y / 2 ^ ulp_exp y) := by
    have := rne_mono _ _ h1
    have e : ((2 : ℚ) ^ (52 : ℤ)) = (((2 : ℤ) ^ 52 : ℤ) : ℚ) := by norm_num
    rw [e, rne_intCast] at this
    exact this
  have h3 : (2 : ℚ) ^ (52 : ℤ) ≤ (rne (y / 2 ^ ulp_exp y) : ℚ) := by
    have : (((2 : ℤ) ^ 52 : ℤ) : ℚ) ≤ ((rne (y / 2 ^ ulp_exp y) : ℤ) : ℚ) := by exact_mod_cast h2
    norm_num at this ⊢
    exact this
  unfold rd
  rw [add_comm, zpow_add₀ (by norm_num : (2 : ℚ) ≠ 0)]
  exact mul_le_mul_of_nonneg_right h3 hq.le

/-- Rounding to `binary64` is monotone on the non-negative rationals. -/
theorem rd_mono (x y : ℚ) (hx : 0 ≤ x) (h : x ≤ y) : rd x ≤ rd y := by
  rcases hx.lt_or_eq with hpos | hzero
  · have hy : 0 < y := lt_of_lt_of_le hpos h
    rcases (ulp_exp_mono x y hpos h).lt_or_eq with hlt | heq
    · have h1 := rd_le_top x hpos
      have h2 := rd_ge_bottom y hy (by unfold ulp_exp at hlt ⊢; have := le_max_right (Int.log 2 |x|) (-1022); omega)
      have h3 : (2 : ℚ) ^ (ulp_exp x + 53) ≤ 2 ^ (ulp_exp y + 52) :=
        zpow_le_zpow_right₀ (by norm_num) (by omega)
      linarith
    · unfold rd
      rw [heq]
      have hq : (0 : ℚ) < 2 ^ ulp_exp y := by positivity
      have := rne_mono (x / 2 ^ ulp_exp y) (y / 2 ^ ulp_exp y)
        (div_le_div_of_nonneg_right h hq.le)
      have h2 : (rne (x / 2 ^ ulp_exp y) : ℚ) ≤ (rne (y / 2 ^ ulp_exp y) : ℚ) := by
        exact_mod_cast this
      exact mul_le_mul_of_nonneg_right h2 hq.le
  · rw [← hzero, rd_zero]
    exact rd_nonneg y (hzero ▸ h)

/-- Rounding moves a value by at most half a unit in the last place. -/
theorem rd_error (x : ℚ) : |rd x - x| ≤ 2 ^ (ulp_exp x - 1) := by
  have hq : (0 : ℚ) < 2 ^ ulp_exp x := by positivity
  have h := rne_error (x / 2 ^ ulp_exp x)
  have e : rd x - x = ((rne (x / 2 ^ ulp_exp x) : ℚ) - x / 2 ^ ulp_exp x) * 2 ^ ulp_exp x := by
    unfold rd
    field_simp
  rw [e, abs_mul, abs_of_pos hq, zpow_sub_one₀ (by norm_num : (2 : ℚ) ≠ 0)]
  have := mul_le_mul_of_nonneg_right h hq.le
  linarith

/-- Below `2^k` (with `k` above the subnormal range) the rounding error is at
most `2^(k-54)`. -/
theorem rd_error_below (x : ℚ) (k : ℤ) (hk : -1021 ≤ k) (hx : |x| < 2 ^ k) :
    |rd x - x| ≤ 2 ^ (k - 54) := by
  by_cases hz : x = 0
  · rw [hz, rd_zero, sub_zero, abs_zero]
    positivity
  · have hpos : 0 < |x| := abs_pos.mpr hz
    have hu : ulp_exp x - 1 ≤ k - 54 := by
      unfold ulp_exp
      have : Int.log 2 |x| < k := by
        rw [← Int.lt_zpow_iff_log_lt (by norm_num) hpos]
        exact_mod_cast hx
      rcases le_total (Int.log 2 |x|) (-1022) with h' | h'
      · rw [max_eq_right h']
        omega
      · rw [max_eq_left h']
        omega
    exact le_trans (rd_error x) (zpow_le_zpow_right₀ (by norm_num) hu)

/-- A value within one half of an integer rounds to it. -/
theorem rne_near (x : ℚ) (n : ℤ) (h0 : (n : ℚ) - 1 / 2 < x) (h1 : x < (n : ℚ) + 1 / 2) :
    rne x = n := by
  have a := (rne_error x)
  rw [abs_le] at a
  have h2 : ((rne x : ℤ) : ℚ) < ((n + 1 : ℤ) : ℚ) := by
    push_cast
    linarith [a.2]
  have h3 : ((n - 1 : ℤ) : ℚ) < ((rne x : ℤ) : ℚ) := by
    push_cast
    linarith [a.1]
  have h4 : rne x < n + 1 := by exact_mod_cast h2
  have h5 : n - 1 < rne x := by exact_mod_cast h3
  omega

/-- A value half-way between two integers rounds to the even one. -/
theorem rne_tie (n : ℤ) :
    rne ((n : ℚ) + 1 / 2) = if n % 2 = 0 then n else n + 1 := by
  have hf : ⌊(n : ℚ) + 1 / 2⌋ = n := by
    rw [Int.floor_eq_iff]
    constructor <;> linarith
  unfold rne
  rw [hf, if_neg (by norm_num), if_neg (by norm_num)]

/-- The rounding of a positive value whose binade and rounded significand are
known. -/
theorem rd_eq_pos (x : ℚ) (e n : ℤ) (he : -1022 ≤ e) (h0 : (2 : ℚ) ^ e ≤ x)
    (h1 : x < (2 : ℚ) ^ (e + 1)) (hn : rne (x / 2 ^ (e - 52)) = n) :
    rd x = (n : ℚ) * 2 ^ (e - 52) := by
  have hx : 0 < x := lt_of_lt_of_le (by positivity) h0
  exact rd_eq x e n he (by rw [abs_of_pos hx]; exact h0) (by rw [abs_of_pos hx]; exact h1) hn

/-- A positive value with at most 53 significant bits is a `double`. -/
theorem rd_fix_pos (x : ℚ) (e n : ℤ) (he : -1022 ≤ e) (h0 : (2 : ℚ) ^ e ≤ x)
    (h1 : x < (2 : ℚ) ^ (e + 1)) (hn : x = (n : ℚ) * 2 ^ (e - 52)) : rd x = x := by
  have hx : 0 < x := lt_of_lt_of_le (by positivity) h0
  exact rd_fix x e n he (by rw [abs_of_pos hx]; exact h0) (by rw [abs_of_pos hx]; exact h1) hn

/-- A negative value with at most 53 significant bits is a `double`. -/
theorem rd_fix_neg (x : ℚ) (e n : ℤ) (he : -1022 ≤ e) (h0 : (2 : ℚ) ^ e ≤ -x)
    (h1 : -x < (2 : ℚ) ^ (e + 1)) (hn : x = (n : ℚ) * 2 ^ (e - 52)) : rd x = x := by
  have hx : x < 0 := by
    have : (0 : ℚ) < 2 ^ e := by positivity
    linarith
  exact rd_fix x e n he (by rw [abs_of_neg hx]; exact h0) (by rw [abs_of_neg hx]; exact h1) hn

/-- The constants of the quantizer are `double`s. -/
theorem rd_consts :
    rd (1 / 2) = 1 / 2 ∧ rd 1 = 1 ∧ rd 2 = 2 ∧ rd 3 = 3 ∧ rd 65535 = 65535 ∧
      rd (131071 / 2) = 131071 / 2 ∧ rd 65536 = 65536 ∧ rd (2 ^ 64) = 2 ^ 64 := by
  refine ⟨rd_fix_pos _ (-1) (2 ^ 52) ?_ ?_ ?_ ?_, rd_fix_pos _ 0 (2 ^ 52) ?_ ?_ ?_ ?_,
    rd_fix_pos _ 1 (2 ^ 52) ?_ ?_ ?_ ?_, rd_fix_pos _ 1 (3 * 2 ^ 51) ?_ ?_ ?_ ?_,
    rd_fix_pos _ 15 (65535 * 2 ^ 37) ?_ ?_ ?_ ?_,
    rd_fix_pos _ 15 (131071 * 2 ^ 36) ?_ ?_ ?_ ?_,
    rd_fix_pos _ 16 (2 ^ 52) ?_ ?_ ?_ ?_, rd_fix_pos _ 64 (2 ^ 52) ?_ ?_ ?_ ?_⟩ <;> norm_num

/-- The scaled value of a sample in `[-1, 1]` lies in `[0.5, 65535.5]`. -/
theorem scaled_value_range (f : ℚ) (hlo : -1 ≤ f) (hhi : f ≤ 1) :
    1 / 2 ≤ scaled_value f ∧ scaled_value f ≤ 131071 / 2 := by
  obtain ⟨c12, _, c2, _, c65535, c655355, _, _⟩ := rd_consts
  have h1 : 0 ≤ rd (f + 1.0) := rd_nonneg _ (by norm_num; linarith)
  have h1' : rd (f + 1.0) ≤ 2 := by
    have := rd_mono (f + 1.0) 2 (by norm_num; linarith) (by norm_num; linarith)
    rwa [c2] at this
  have h2 : 0 ≤ rd (rd (f + 1.0) * 32767.5) := rd_nonneg _ (mul_nonneg h1 (by norm_num))
  have h2' : rd (rd (f + 1.0) * 32767.5) ≤ 65535 := by
    have := rd_mono (rd (f + 1.0) * 32767.5) 65535 (mul_nonneg h1 (by norm_num))
      (by norm_num; linarith)
    rwa [c65535] at this
  constructor
  · have := rd_mono (1 / 2) (rd (rd (f + 1.0) * 32767.5) + 0.5) (by norm_num)
      (by norm_num; linarith)
    rwa [c12] at this
  · have := rd_mono (rd (rd (f + 1.0) * 32767.5) + 0.5) (131071 / 2)
      (add_nonneg h2 (by norm_num)) (by norm_num; linarith)
    rwa [c655355] at this

/-- Where the cast to `size_t` is defined, `float_to_int_round` returns the floor
of the scaled value minus 32768, reduced modulo `2^16`. -/
theorem float_to_int_round_defined (f : ℚ) (h0 : 0 ≤ scaled_value f)
    (h1 : scaled_value f < 2 ^ 64) :
    Binary64.float_to_int_round f = some (to_short (⌊scaled_value f⌋ - 32768)) := by
  have hf0 : 0 ≤ ⌊scaled_value f⌋ := Int.floor_nonneg.mpr h0
  have hs : Binary64.to_size_t (scaled_value f) = some ⌊scaled_value f⌋ := by
    unfold Binary64.to_size_t trunc
    rw [if_pos ⟨by linarith, h1⟩, if_pos h0]
  show (match Binary64.to_size_t (scaled_value f) with
    | none => none
    | some u => some (to_short (size_t_sub u 32768))) = _
  rw [hs]
  simp only [Option.some.injEq]
  unfold to_short size_t_sub
  omega

/-! ## Quantizer in binary64 arithmetic -/

/-- Floors of values less than one apart differ by at most one. -/
theorem floor_near (a b : ℚ) (h : |a - b| < 1) : |⌊a⌋ - ⌊b⌋| ≤ 1 := by
  rw [abs_lt] at h
  have a0 := Int.floor_le a
  have a1 := Int.lt_floor_add_one a
  have b0 := Int.floor_le b
  have b1 := Int.lt_floor_add_one b
  have h1 : ((⌊a⌋ : ℤ) : ℚ) < ((⌊b⌋ + 2 : ℤ) : ℚ) := by
    push_cast
    linarith
  have h2 : ((⌊b⌋ : ℤ) : ℚ) < ((⌊a⌋ + 2 : ℤ) : ℚ) := by
    push_cast
    linarith
  have h3 : ⌊a⌋ < ⌊b⌋ + 2 := by exact_mod_cast h1
  have h4 : ⌊b⌋ < ⌊a⌋ + 2 := by exact_mod_cast h2
  rw [abs_le]
  constructor <;> omega

/-- The rounding errors of the three operations of `float_to_int_round` add up
to at most `2^-36` on `[-1, 1]`. -/
theorem scaled_value_error (f : ℚ) (hlo : -1 ≤ f) (hhi : f ≤ 1) :
    |scaled_value f - ((f + 1) * 32767.5 + 0.5)| ≤ 2 ^ (-36 : ℤ) := by
  obtain ⟨_, _, c2, _, c65535, _, _, _⟩ := rd_consts
  have h1 : 0 ≤ rd (f + 1.0) := rd_nonneg _ (by norm_num; linarith)
  have h1' : rd (f + 1.0) ≤ 2 := by
    have := rd_mono (f + 1.0) 2 (by norm_num; linarith) (by norm_num; linarith)
    rwa [c2] at this
  have h2 : 0 ≤ rd (rd (f + 1.0) * 32767.5) := rd_nonneg _ (mul_nonneg h1 (by norm_num))
  have h2' : rd (rd (f + 1.0) * 32767.5) ≤ 65535 := by
    have := rd_mono (rd (f + 1.0) * 32767.5) 65535 (mul_nonneg h1 (by norm_num))
      (by norm_num; linarith)
    rwa [c65535] at this
  have e1 := rd_error_below (f + 1.0) 2 (by norm_num)
    (by rw [abs_lt]; constructor <;> norm_num <;> linarith)
  have hx2 : 0 ≤ rd (f + 1.0) * 32767.5 := mul_nonneg h1 (by norm_num)
  have e2 := rd_error_below (rd (f + 1.0) * 32767.5) 16 (by norm_num)
    (by rw [abs_of_nonneg hx2]; norm_num; linarith)
  have e3 := rd_error_below (rd (rd (f + 1.0) * 32767.5) + 0.5) 16 (by norm_num)
    (by rw [abs_of_nonneg (add_nonneg h2 (by norm_num))]; norm_num; linarith)
  rw [abs_le] at e1 e2 e3 ⊢
  show -(2 : ℚ) ^ (-36 : ℤ) ≤ rd (rd (rd (f + 1.0) * 32767.5) + 0.5) - ((f + 1) * 32767.5 + 0.5) ∧
    rd (rd (rd (f + 1.0) * 32767.5) + 0.5) - ((f + 1) * 32767.5 + 0.5) ≤ (2 : ℚ) ^ (-36 : ℤ)
  norm_num at e1 e2 e3 ⊢
  constructor <;> linarith

/-- C1 (counterexample): at the `double` `f = -2^-60` in `[-1, 1]` the sum
`f + 1.0` rounds to `1.0` and the code returns 0, while
`⌊(f+1)·32767.5 + 0.5⌋ - 32768` is -1. -/
theorem float_to_int_round_rounds_sum :
    (-1 ≤ -(2 : ℚ) ^ (-60 : ℤ) ∧ -(2 : ℚ) ^ (-60 : ℤ) ≤ 1) ∧
      rd (-(2 : ℚ) ^ (-60 : ℤ)) = -(2 : ℚ) ^ (-60 : ℤ) ∧
      rd (-(2 : ℚ) ^ (-60 : ℤ) + 1.0) = 1 ∧
      Binary64.float_to_int_round (-(2 : ℚ) ^ (-60 : ℤ)) = some 0 ∧
      ⌊(-(2 : ℚ) ^ (-60 : ℤ) + 1) * 32767.5 + 0.5⌋ - 32768 = -1 := by
  have hd : rd (-(2 : ℚ) ^ (-60 : ℤ)) = -(2 : ℚ) ^ (-60 : ℤ) :=
    rd_fix_neg _ (-60) (-(2 ^ 52)) (by norm_num) (by norm_num) (by norm_num) (by norm_num)
  have h1 : rd (-(2 : ℚ) ^ (-60 : ℤ) + 1.0) = 1 := by
    rw [rd_eq_pos _ (-1) (2 ^ 53) (by norm_num) (by norm_num) (by norm_num)
      (rne_near _ _ (by norm_num) (by norm_num))]
    norm_num
  have h2 : rd ((1 : ℚ) * 32767.5) = 65535 / 2 := by
    rw [rd_fix_pos _ 14 (65535 * 2 ^ 37) (by norm_num) (by norm_num) (by norm_num)
      (by norm_num)]
    norm_num
  have h3 : rd ((65535 / 2 : ℚ) + 0.5) = 32768 := by
    rw [rd_fix_pos _ 15 (2 ^ 52) (by norm_num) (by norm_num) (by norm_num) (by norm_num)]
    norm_num
  have hs : scaled_value (-(2 : ℚ) ^ (-60 : ℤ)) = 32768 := by
    show rd (rd (rd (-(2 : ℚ) ^ (-60 : ℤ) + 1.0) * 32767.5) + 0.5) = 32768
    rw [h1, h2, h3]
  refine ⟨by norm_num, hd, h1, ?_, ?_⟩
  · rw [float_to_int_round_defined _ (by rw [hs]; norm_num) (by rw [hs]; norm_num), hs]
    have : ⌊(32768 : ℚ)⌋ = 32768 := by
      rw [Int.floor_eq_iff]
      norm_num
    rw [this]
    rfl
  · have : ⌊(-(2 : ℚ) ^ (-60 : ℤ) + 1) * 32767.5 + 0.5⌋ = 32767 := by
      rw [Int.floor_eq_iff]
      norm_num
    rw [this]
    rfl

/-- C1 (amended): for every `f` in `[-1, 1]`, `float_to_int_round f` in `binary64`
arithmetic is `⌊s⌋ - 32768`, where `s` is the scaled value as the code computes
it; `s` lies in `[0.5, 65535.5]`, so the result lies in `[-32768, 32767]` and
the cast to `short` changes nothing; `s` is within `2^-36` of
`(f+1)·32767.5 + 0.5`, so the result is within 1 of
`⌊(f+1)·32767.5 + 0.5⌋ - 32768`. -/
theorem float_to_int_round_double (f : ℚ) (hlo : -1 ≤ f) (hhi : f ≤ 1) :
    Binary64.float_to_int_round f = some (⌊scaled_value f⌋ - 32768) ∧
      (1 / 2 ≤ scaled_value f ∧ scaled_value f ≤ 131071 / 2) ∧
      (-32768 ≤ ⌊scaled_value f⌋ - 32768 ∧ ⌊scaled_value f⌋ - 32768 ≤ 32767) ∧
      to_short (⌊scaled_value f⌋ - 32768) = ⌊scaled_value f⌋ - 32768 ∧
      |scaled_value f - ((f + 1) * 32767.5 + 0.5)| ≤ 2 ^ (-36 : ℤ) ∧
      |(⌊scaled_value f⌋ - 32768) - (⌊(f + 1) * 32767.5 + 0.5⌋ - 32768)| ≤ 1 := by
  obtain ⟨r0, r1⟩ := scaled_value_range f hlo hhi
  have herr := scaled_value_error f hlo hhi
  have hf0 : 0 ≤ ⌊scaled_value f⌋ := Int.floor_nonneg.mpr (by linarith)
  have hf1 : ⌊scaled_value f⌋ < 65536 := by
    rw [Int.floor_lt]
    push_cast
    linarith
  have hts : to_short (⌊scaled_value f⌋ - 32768) = ⌊scaled_value f⌋ - 32768 := by
    unfold to_short
    omega
  have hnear := floor_near (scaled_value f) ((f + 1) * 32767.5 + 0.5)
    (lt_of_le_of_lt herr (by norm_num))
  refine ⟨?_, ⟨r0, r1⟩, ⟨by omega, by omega⟩, hts, herr, ?_⟩
  · rw [float_to_int_round_defined f (by linarith) (by linarith), hts]
  · have e : (⌊scaled_value f⌋ - 32768) - (⌊(f + 1) * 32767.5 + 0.5⌋ - 32768) =
        ⌊scaled_value f⌋ - ⌊(f + 1) * 32767.5 + 0.5⌋ := by ring
    rw [e]
    exact hnear

/-- Witness for the amended C1 at the `double` `f = -2^-60`. -/
theorem float_to_int_round_double_witness :
    Binary64.float_to_int_round (-(2 : ℚ) ^ (-60 : ℤ)) =
      some (⌊scaled_value (-(2 : ℚ) ^ (-60 : ℤ))⌋ - 32768) :=
  (float_to_int_round_double (-(2 : ℚ) ^ (-60 : ℤ)) (by norm_num) (by norm_num)).1

/-- The scaled value of the sample `f = 2`. -/
theorem scaled_value_two : scaled_value 2 = 98303 := by
  have h1 : rd ((2 : ℚ) + 1.0) = 3 := by
    rw [rd_fix_pos _ 1 (3 * 2 ^ 51) (by norm_num) (by norm_num) (by norm_num) (by norm_num)]
    norm_num
  have h2 : rd ((3 : ℚ) * 32767.5) = 196605 / 2 := by
    rw [rd_fix_pos _ 16 (196605 * 2 ^ 35) (by norm_num) (by norm_num) (by norm_num)
      (by norm_num)]
    norm_num
  have h3 : rd ((196605 / 2 : ℚ) + 0.5) = 98303 := by
    rw [rd_fix_pos _ 16 (98303 * 2 ^ 36) (by norm_num) (by norm_num) (by norm_num)
      (by norm_num)]
    norm_num
  show rd (rd (rd ((2 : ℚ) + 1.0) * 32767.5) + 0.5) = 98303
  rw [h1, h2, h3]

/-- The quantizer at the sample `f = 2` in `binary64` arithmetic. -/
theorem float_to_int_round_two : Binary64.float_to_int_round 2 = some (-1) := by
  rw [float_to_int_round_defined 2 (by rw [scaled_value_two]; norm_num)
    (by rw [scaled_value_two]; norm_num), scaled_value_two]
  have : ⌊(98303 : ℚ)⌋ = 98303 := by
    rw [Int.floor_eq_iff]
    norm_num
  rw [this]
  rfl

/-- The scaled value grows with the sample, for samples from -1 on. -/
theorem scaled_value_mono (f g : ℚ) (hf : -1 ≤ f) (hfg : f ≤ g) :
    scaled_value f ≤ scaled_value g := by
  have h1 : 0 ≤ rd (f + 1.0) := rd_nonneg _ (by norm_num; linarith)
  have m1 : rd (f + 1.0) ≤ rd (g + 1.0) :=
    rd_mono _ _ (by norm_num; linarith) (by linarith)
  have h2 : 0 ≤ rd (rd (f + 1.0) * 32767.5) := rd_nonneg _ (mul_nonneg h1 (by norm_num))
  have m2 : rd (rd (f + 1.0) * 32767.5) ≤ rd (rd (g + 1.0) * 32767.5) :=
    rd_mono _ _ (mul_nonneg h1 (by norm_num))
      (mul_le_mul_of_nonneg_right m1 (by norm_num))
  exact rd_mono _ _ (add_nonneg h2 (by norm_num)) (by linarith)

/-- In `binary64` arithmetic the quantizer returns -32768, 32767 and 0 at the
samples -1, 1 and 0, as in exact arithmetic. -/
theorem double_quantizer_ends :
    Binary64.float_to_int_round (-1) = some (-32768) ∧
      Binary64.float_to_int_round 1 = some 32767 ∧
      Binary64.float_to_int_round 0 = some 0 := by
  obtain ⟨c12, c1, c2, _, c65535, c655355, _, _⟩ := rd_consts
  have a : scaled_value (-1) = 1 / 2 := by
    show rd (rd (rd ((-1 : ℚ) + 1.0) * 32767.5) + 0.5) = 1 / 2
    norm_num [rd_zero, c12]
  have b : scaled_value 1 = 131071 / 2 := by
    have e1 : rd ((1 : ℚ) + 1.0) = 2 := by norm_num [c2]
    have e2 : rd ((2 : ℚ) * 32767.5) = 65535 := by norm_num [c65535]
    have e3 : rd ((65535 : ℚ) + 0.5) = 131071 / 2 := by norm_num [c655355]
    show rd (rd (rd ((1 : ℚ) + 1.0) * 32767.5) + 0.5) = 131071 / 2
    rw [e1, e2, e3]
  have c : scaled_value 0 = 32768 := by
    have e1 : rd ((0 : ℚ) + 1.0) = 1 := by norm_num [c1]
    have e2 : rd ((1 : ℚ) * 32767.5) = 65535 / 2 := by
      rw [rd_fix_pos _ 14 (65535 * 2 ^ 37) (by norm_num) (by norm_num) (by norm_num)
        (by norm_num)]
      norm_num
    have e3 : rd ((65535 / 2 : ℚ) + 0.5) = 32768 := by
      rw [rd_fix_pos _ 15 (2 ^ 52) (by norm_num) (by norm_num) (by norm_num) (by norm_num)]
      norm_num
    show rd (rd (rd ((0 : ℚ) + 1.0) * 32767.5) + 0.5) = 32768
    rw [e1, e2, e3]
  have fa : ⌊(1 / 2 : ℚ)⌋ = 0 := by
    rw [Int.floor_eq_iff]
    norm_num
  have fb : ⌊(131071 / 2 : ℚ)⌋ = 65535 := by
    rw [Int.floor_eq_iff]
    norm_num
  have fc : ⌊(32768 : ℚ)⌋ = 32768 := by
    rw [Int.floor_eq_iff]
    norm_num
  refine ⟨?_, ?_, ?_⟩
  · rw [float_to_int_round_defined _ (by rw [a]; norm_num) (by rw [a]; norm_num), a, fa]
    rfl
  · rw [float_to_int_round_defined _ (by rw [b]; norm_num) (by rw [b]; norm_num), b, fb]
    rfl
  · rw [float_to_int_round_defined _ (by rw [c]; norm_num) (by rw [c]; norm_num), c, fc]
    rfl

/-- In `binary64` arithmetic the quantizer is monotone on `[-1, 1]`, as in exact
arithmetic. -/
theorem double_quantizer_mono (f g : ℚ) (hf : -1 ≤ f) (hfg : f ≤ g) (hg : g ≤ 1) :
    ∃ a b, Binary64.float_to_int_round f = some a ∧
      Binary64.float_to_int_round g = some b ∧ a ≤ b := by
  obtain ⟨f0, f1⟩ := scaled_value_range f hf (hfg.trans hg)
  obtain ⟨g0, g1⟩ := scaled_value_range g (hf.trans hfg) hg
  have hm := Int.floor_mono (scaled_value_mono f g hf hfg)
  have hfl : ⌊scaled_value f⌋ < 65536 := by
    rw [Int.floor_lt]
    push_cast
    linarith
  have hgl : ⌊scaled_value g⌋ < 65536 := by
    rw [Int.floor_lt]
    push_cast
    linarith
  have hf0 : 0 ≤ ⌊scaled_value f⌋ := Int.floor_nonneg.mpr (by linarith)
  have hg0 : 0 ≤ ⌊scaled_value g⌋ := Int.floor_nonneg.mpr (by linarith)
  refine ⟨_, _, float_to_int_round_defined f (by linarith) (by linarith),
    float_to_int_round_defined g (by linarith) (by linarith), ?_⟩
  unfold to_short
  omega

/-! ## Square sample in binary64 arithmetic -/

/-- The constant `M_2PI` in `double`: twice `M_PI`, exactly. -/
theorem double_M_2PI (sin : ℚ → ℚ) :
    (libm sin).M_2PI = 884279719003555 / 140737488355328 := by
  show (2.0 : ℚ) * Binary64.M_PI = _
  unfold Binary64.M_PI
  norm_num

/-- The `sample` of `generate_square` in `binary64` arithmetic with
`polyblep_mode` on. -/
theorem double_square_sample_unfold (m : Libm ℚ) (st : State ℚ) :
    Binary64.square_sample m st =
      rd (rd ((if st.phase < m.M_PI then (1 : ℚ) else -1) +
          Binary64.polyblep_narrow m st (rd (st.phase / m.M_2PI))) -
        Binary64.polyblep_narrow m st (fmod (rd (rd (st.phase / m.M_2PI) + 0.5)) 1.0)) := by
  unfold Binary64.square_sample polyblep_mode
  norm_num

/-- The kernel at `t = 0` with a positive `dt`: the first branch gives -1. -/
theorem double_polyblep_zero (m : Libm ℚ) (st : State ℚ)
    (hdt : 0 < rd (st.phase_step / m.M_2PI)) : Binary64.polyblep_narrow m st 0 = -1 := by
  have hm1 : rd (-1 : ℚ) = -1 :=
    rd_fix_neg _ 0 (-(2 ^ 52)) (by norm_num) (by norm_num) (by norm_num) (by norm_num)
  unfold Binary64.polyblep_narrow
  simp only []
  rw [if_pos hdt]
  norm_num [rd_zero, hm1]

/-- The kernel between the two windows is 0. -/
theorem double_polyblep_mid (m : Libm ℚ) (st : State ℚ) (t : ℚ)
    (h1 : rd (st.phase_step / m.M_2PI) ≤ t)
    (h2 : t ≤ rd (1.0 - rd (st.phase_step / m.M_2PI))) :
    Binary64.polyblep_narrow m st t = 0 := by
  unfold Binary64.polyblep_narrow
  simp only []
  rw [if_neg (not_lt.mpr h1), if_neg (not_lt.mpr h2)]
  norm_num

/-- The kernel at `t = 1`: the second branch gives 1. -/
theorem double_polyblep_one (m : Libm ℚ) (st : State ℚ)
    (h1 : rd (st.phase_step / m.M_2PI) ≤ 1)
    (h2 : rd (1.0 - rd (st.phase_step / m.M_2PI)) < 1) :
    Binary64.polyblep_narrow m st 1 = 1 := by
  have c1 := rd_consts.2.1
  unfold Binary64.polyblep_narrow
  simp only []
  rw [if_neg (not_lt.mpr h1), if_pos h2]
  norm_num [rd_zero, c1]

/-- The normalized step `dt` of the step `1/16` lies in `[1/128, 1/64]`, and
`1 - dt` rounds into `[63/64, 127/128]`. -/
theorem double_dt_sixteenth (sin : ℚ → ℚ) :
    (1 / 128 ≤ rd ((1 / 16 : ℚ) / (libm sin).M_2PI) ∧
        rd ((1 / 16 : ℚ) / (libm sin).M_2PI) ≤ 1 / 64) ∧
      63 / 64 ≤ rd (1.0 - rd ((1 / 16 : ℚ) / (libm sin).M_2PI)) ∧
      rd (1.0 - rd ((1 / 16 : ℚ) / (libm sin).M_2PI)) ≤ 127 / 128 := by
  have a : rd (1 / 128 : ℚ) = 1 / 128 :=
    rd_fix_pos _ (-7) (2 ^ 52) (by norm_num) (by norm_num) (by norm_num) (by norm_num)
  have b : rd (1 / 64 : ℚ) = 1 / 64 :=
    rd_fix_pos _ (-6) (2 ^ 52) (by norm_num) (by norm_num) (by norm_num) (by norm_num)
  have c : rd (63 / 64 : ℚ) = 63 / 64 :=
    rd_fix_pos _ (-1) (63 * 2 ^ 47) (by norm_num) (by norm_num) (by norm_num) (by norm_num)
  have d : rd (127 / 128 : ℚ) = 127 / 128 :=
    rd_fix_pos _ (-1) (127 * 2 ^ 46) (by norm_num) (by norm_num) (by norm_num) (by norm_num)
  rw [double_M_2PI]
  have lo := rd_mono (1 / 128) ((1 / 16 : ℚ) / (884279719003555 / 140737488355328))
    (by norm_num) (by norm_num)
  have hi := rd_mono ((1 / 16 : ℚ) / (884279719003555 / 140737488355328)) (1 / 64)
    (by norm_num) (by norm_num)
  rw [a] at lo
  rw [b] at hi
  have lo2 := rd_mono (63 / 64)
    (1.0 - rd ((1 / 16 : ℚ) / (884279719003555 / 140737488355328))) (by norm_num)
    (by norm_num; linarith)
  have hi2 := rd_mono (1.0 - rd ((1 / 16 : ℚ) / (884279719003555 / 140737488355328)))
    (127 / 128) (by norm_num; linarith) (by norm_num; linarith)
  rw [c] at lo2
  rw [d] at hi2
  exact ⟨⟨lo, hi⟩, lo2, hi2⟩

/-- The phase one unit in the last place below `M_PI` is a `double`; its
normalized phase rounds to `1/2 - 2^-54`, and adding `0.5` to that rounds (a
tie, to the even neighbour) to `1.0`. -/
theorem double_edge_phase (sin : ℚ → ℚ) :
    rd (Binary64.M_PI - 2 ^ (-51 : ℤ)) = Binary64.M_PI - 2 ^ (-51 : ℤ) ∧
      rd ((Binary64.M_PI - 2 ^ (-51 : ℤ)) / (libm sin).M_2PI) = 1 / 2 - 2 ^ (-54 : ℤ) ∧
      rd ((1 / 2 - 2 ^ (-54 : ℤ) : ℚ) + 0.5) = 1 := by
  refine ⟨?_, ?_, ?_⟩
  · unfold Binary64.M_PI
    exact rd_fix_pos _ 1 7074237752028439 (by norm_num) (by norm_num) (by norm_num)
      (by norm_num)
  · rw [double_M_2PI]
    unfold Binary64.M_PI
    rw [rd_eq_pos _ (-2) 9007199254740991 (by norm_num) (by norm_num) (by norm_num)
      (rne_near _ _ (by norm_num) (by norm_num))]
    norm_num
  · have e : ((1 / 2 - 2 ^ (-54 : ℤ) : ℚ) + 0.5) / 2 ^ ((-1 : ℤ) - 52) =
        ((9007199254740991 : ℤ) : ℚ) + 1 / 2 := by norm_num
    rw [rd_eq_pos _ (-1) 9007199254740992 (by norm_num) (by norm_num) (by norm_num)
      (by rw [e, rne_tie]; rfl)]
    norm_num

/-- The library `fmod` at the two arguments that occur below. -/
theorem fmod_values : fmod (1 : ℚ) 1.0 = 0 ∧ fmod (3 / 2 : ℚ) 1.0 = 1 / 2 := by
  have h : ⌊(3 / 2 : ℚ)⌋ = 1 := by
    rw [Int.floor_eq_iff]
    norm_num
  constructor
  · unfold fmod trunc
    norm_num
  · unfold fmod trunc
    norm_num [h]

/-- The square sample in `binary64` arithmetic at the phase one unit in the
last place below `M_PI`, with the step `1/16`: the falling-edge argument
`fmod(t + 0.5, 1.0)` is 0 instead of nearly 1, and the sample is 2. -/
theorem double_square_edge (sin : ℚ → ℚ) :
    Binary64.square_sample (libm sin)
      { mode := OscillatorMode.OM_SQUARE, fundamental := 440,
        phase := Binary64.M_PI - 2 ^ (-51 : ℤ), phase_step := 1 / 16, prev := 0 } = 2 := by
  obtain ⟨⟨d0, d1⟩, d2, _⟩ := double_dt_sixteenth sin
  obtain ⟨_, e1, e2⟩ := double_edge_phase sin
  obtain ⟨_, c1, c2, _⟩ := rd_consts
  rw [double_square_sample_unfold]
  simp only []
  rw [e1, e2, fmod_values.1,
    double_polyblep_mid _ _ _ (by simp only []; norm_num; linarith)
      (by simp only []; norm_num; linarith),
    double_polyblep_zero _ _ (by simp only []; linarith),
    if_pos (by
      show Binary64.M_PI - 2 ^ (-51 : ℤ) < Binary64.M_PI
      norm_num)]
  norm_num [c1, c2]

/-- C8 (failing input): in `binary64` arithmetic, at the phase one unit in the
last place below `M_PI` (a valid phase in `[0, 2π)`) with the valid step `1/16`,
`t + 0.5` rounds to `1.0`, `fmod` gives 0, and the sample that
`generate_square` computes before quantization is 2, outside `[-1, 1]`; the
quantizer stores -1 after the cast to `short` has wrapped. -/
theorem square_sample_out_of_range (sin : ℚ → ℚ) :
    ((0 ≤ Binary64.M_PI - 2 ^ (-51 : ℤ) ∧
        Binary64.M_PI - 2 ^ (-51 : ℤ) < (libm sin).M_2PI) ∧
      (0 < (1 / 16 : ℚ) ∧ (1 / 16 : ℚ) < (libm sin).M_PI) ∧
      rd (Binary64.M_PI - 2 ^ (-51 : ℤ)) = Binary64.M_PI - 2 ^ (-51 : ℤ) ∧
      rd (1 / 16 : ℚ) = 1 / 16) ∧
    Binary64.square_sample (libm sin)
      { mode := OscillatorMode.OM_SQUARE, fundamental := 440,
        phase := Binary64.M_PI - 2 ^ (-51 : ℤ), phase_step := 1 / 16, prev := 0 } = 2 ∧
    ¬ (Binary64.square_sample (libm sin)
      { mode := OscillatorMode.OM_SQUARE, fundamental := 440,
        phase := Binary64.M_PI - 2 ^ (-51 : ℤ), phase_step := 1 / 16, prev := 0 } ≤ 1) ∧
    Binary64.float_to_int_round (Binary64.square_sample (libm sin)
      { mode := OscillatorMode.OM_SQUARE, fundamental := 440,
        phase := Binary64.M_PI - 2 ^ (-51 : ℤ), phase_step := 1 / 16, prev := 0 }) =
      some (-1) ∧
    ⌊scaled_value 2⌋ - 32768 = 65535 := by
  have hs := double_square_edge sin
  have hval : ⌊scaled_value 2⌋ - 32768 = 65535 := by
    rw [scaled_value_two]
    have : ⌊(98303 : ℚ)⌋ = 98303 := by
      rw [Int.floor_eq_iff]
      norm_num
    rw [this]
    rfl
  refine ⟨⟨⟨?_, ?_⟩, ⟨by norm_num, ?_⟩, (double_edge_phase sin).1, ?_⟩, hs, ?_, ?_, hval⟩
  · unfold Binary64.M_PI
    norm_num
  · rw [double_M_2PI]
    unfold Binary64.M_PI
    norm_num
  · show (1 / 16 : ℚ) < Binary64.M_PI
    unfold Binary64.M_PI
    norm_num
  · exact rd_fix_pos _ (-4) (2 ^ 52) (by norm_num) (by norm_num) (by norm_num) (by norm_num)
  · rw [hs]
    norm_num
  · rw [hs]
    exact float_to_int_round_two

/-- C18 (failing input): in `binary64` arithmetic, at the phase one unit in the
last place below `M_PI` with the step `1/16`, the normalized phase is
`t = 1/2 - 2^-54` in `[0, 1/2)` and the square sample is 2; the code's value of
`t + 0.5` is `1.0` (the phase plus `M_PI` rounds to `M_2PI`), where the square
sample is 0, not -2. -/
theorem square_half_wave_broken (sin : ℚ → ℚ) :
    (rd ((Binary64.M_PI - 2 ^ (-51 : ℤ)) / (libm sin).M_2PI) = 1 / 2 - 2 ^ (-54 : ℤ) ∧
      (0 : ℚ) ≤ 1 / 2 - 2 ^ (-54 : ℤ) ∧ (1 / 2 - 2 ^ (-54 : ℤ) : ℚ) < 1 / 2) ∧
    (rd ((1 / 2 - 2 ^ (-54 : ℤ) : ℚ) + 0.5) = 1 ∧
      rd (Binary64.M_PI - 2 ^ (-51 : ℤ) + (libm sin).M_PI) = (libm sin).M_2PI ∧
      rd ((libm sin).M_2PI / (libm sin).M_2PI) = 1) ∧
    Binary64.square_sample (libm sin)
      { mode := OscillatorMode.OM_SQUARE, fundamental := 440,
        phase := Binary64.M_PI - 2 ^ (-51 : ℤ), phase_step := 1 / 16, prev := 0 } = 2 ∧
    Binary64.square_sample (libm sin)
      { mode := OscillatorMode.OM_SQUARE, fundamental := 440,
        phase := (libm sin).M_2PI, phase_step := 1 / 16, prev := 0 } = 0 ∧
    Binary64.square_sample (libm sin)
      { mode := OscillatorMode.OM_SQUARE, fundamental := 440,
        phase := (libm sin).M_2PI, phase_step := 1 / 16, prev := 0 } ≠
      -Binary64.square_sample (libm sin)
        { mode := OscillatorMode.OM_SQUARE, fundamental := 440,
          phase := Binary64.M_PI - 2 ^ (-51 : ℤ), phase_step := 1 / 16, prev := 0 } := by
  obtain ⟨⟨d0, d1⟩, d2, d3⟩ := double_dt_sixteenth sin
  obtain ⟨_, e1, e2⟩ := double_edge_phase sin
  obtain ⟨_, c1, _, _⟩ := rd_consts
  have hs := double_square_edge sin
  have hdiv : rd ((libm sin).M_2PI / (libm sin).M_2PI) = 1 := by
    rw [double_M_2PI]
    norm_num [c1]
  have hsum : rd (Binary64.M_PI - 2 ^ (-51 : ℤ) + (libm sin).M_PI) = (libm sin).M_2PI := by
    rw [double_M_2PI]
    show rd (Binary64.M_PI - 2 ^ (-51 : ℤ) + Binary64.M_PI) = _
    unfold Binary64.M_PI
    have e : ((884279719003555 / 281474976710656 - 2 ^ (-51 : ℤ) +
        884279719003555 / 281474976710656 : ℚ)) / 2 ^ ((2 : ℤ) - 52) =
        ((7074237752028439 : ℤ) : ℚ) + 1 / 2 := by norm_num
    rw [rd_eq_pos _ 2 7074237752028440 (by norm_num) (by norm_num) (by norm_num)
      (by rw [e, rne_tie]; rfl)]
    norm_num
  have h15 : rd ((1 : ℚ) + 0.5) = 3 / 2 := by
    rw [rd_fix_pos _ 0 (3 * 2 ^ 51) (by norm_num) (by norm_num) (by norm_num) (by norm_num)]
    norm_num
  have hm : (libm sin).M_PI < (libm sin).M_2PI := by
    rw [double_M_2PI]
    show Binary64.M_PI < _
    unfold Binary64.M_PI
    norm_num
  have hlater : Binary64.square_sample (libm sin)
      { mode := OscillatorMode.OM_SQUARE, fundamental := 440,
        phase := (libm sin).M_2PI, phase_step := 1 / 16, prev := 0 } = 0 := by
    rw [double_square_sample_unfold]
    simp only []
    rw [hdiv, h15, fmod_values.2,
      double_polyblep_one _ _ (by simp only []; linarith) (by simp only []; linarith),
      double_polyblep_mid _ _ _ (by simp only []; linarith)
        (by simp only []; linarith),
      if_neg (not_lt.mpr hm.le)]
    norm_num [rd_zero]
  refine ⟨⟨e1, by norm_num, by norm_num⟩, ⟨e2, hsum, hdiv⟩, hs, hlater, ?_⟩
  rw [hs, hlater]
  norm_num

/-! ## WAV writer: declared data size -/

/-- C14 (counterexample): 16385 calls of 131071 samples each fit the buffer and
have 2147598335 samples in total, below `2^32`, yet the declared `data` size is
229374, not twice that total: the byte count has passed `2^32`. -/
theorem data_chunk_size_wraps :
    ((List.replicate 16385 (List.replicate 131071 (0 : Int))).map List.length).sum =
        2147598335 ∧
      2147598335 < 2 ^ 32 ∧
      ∃ f g, write_samples_seq fopen_wb
          { buffer := fun _ => 0, buffer_i := 0, num_sample_bytes_written := 0 }
          (List.replicate 16385 (List.replicate 131071 0)) = Except.ok (f, g) ∧
        (write_wav_header_locals g).data_chunk.num_bytes = 229374 ∧
        (write_wav_header_locals g).data_chunk.num_bytes ≠ 2 * 2147598335 := by
  have hsum : ((List.replicate 16385 (List.replicate 131071 (0 : Int))).map List.length).sum =
      2147598335 := by
    rw [List.map_replicate, List.length_replicate, List.sum_replicate]
    rfl
  have hfit : ∀ s ∈ List.replicate 16385 (List.replicate 131071 (0 : Int)),
      2 * s.length < BUFFER_SIZE := by
    intro s hs
    rw [List.eq_of_mem_replicate hs, List.length_replicate]
    decide
  obtain ⟨f, g, hs⟩ := write_samples_seq_returns _ fopen_wb
    { buffer := fun _ => 0, buffer_i := 0, num_sample_bytes_written := 0 } hfit (by decide)
  have hc := write_samples_seq_count _ _ f _ g hs
  rw [hsum] at hc
  have hd : (write_wav_header_locals g).data_chunk.num_bytes = 229374 := by
    show g.num_sample_bytes_written % 2 ^ 32 = 229374
    simp only [] at hc
    omega
  refine ⟨hsum, by norm_num, f, g, hs, hd, ?_⟩
  rw [hd]
  norm_num

/-- The bytes of the samples of all blocks number twice the samples. -/
theorem sample_bytes_flatten_length (blocks : List (List Int)) :
    (sample_bytes blocks.flatten).length = 2 * (blocks.map List.length).sum := by
  rw [sample_bytes_length, List.length_flatten]

/-- C14 (amended): starting from `num_sample_bytes_written = 0`, for every
sequence of `write_samples` calls that each fit the buffer and whose samples
occupy fewer than `2^32` bytes in total, the calls return, they append exactly
the bytes of their samples, `2 · (n_1 + ... + n_k)` of them, to the output
stream (the file followed by the filled part of the buffer), and the `data`
chunk size that `write_wav_header` then declares is that number of bytes. -/
theorem data_chunk_counts_appended (blocks : List (List Int)) (f : FILE) (g : Writer)
    (h0 : g.num_sample_bytes_written = 0) (hpos : f.pos = f.bytes.length)
    (hi : g.buffer_i < BUFFER_SIZE) (hfit : ∀ s ∈ blocks, 2 * s.length < BUFFER_SIZE)
    (htot : 2 * (blocks.map List.length).sum < 2 ^ 32) :
    ∃ f' g', write_samples_seq f g blocks = Except.ok (f', g') ∧
      f'.bytes ++ (List.range g'.buffer_i).map g'.buffer =
        (f.bytes ++ (List.range g.buffer_i).map g.buffer) ++ sample_bytes blocks.flatten ∧
      (sample_bytes blocks.flatten).length = 2 * (blocks.map List.length).sum ∧
      (write_wav_header_locals g').data_chunk.num_bytes =
        (sample_bytes blocks.flatten).length := by
  obtain ⟨f', g', hs, _, hstream, _⟩ :=
    write_samples_seq_stream blocks f g _ hfit hpos rfl hi
  have hlen := sample_bytes_flatten_length blocks
  refine ⟨f', g', hs, hstream, hlen, ?_⟩
  rw [hlen]
  exact data_chunk_of_seq blocks f f' g g' h0 htot hs

/-- Witness for the amended C14: the blocks `[1, 2, 3]` and `[-1, -2]` into an
empty file. -/
theorem data_chunk_counts_appended_witness :
    ∃ f' g', write_samples_seq fopen_wb
        { buffer := fun _ => 0, buffer_i := 0, num_sample_bytes_written := 0 }
        [[1, 2, 3], [-1, -2]] = Except.ok (f', g') ∧
      f'.bytes ++ (List.range g'.buffer_i).map g'.buffer =
        [1, 0, 2, 0, 3, 0, 255, 255, 254, 255] ∧
      (write_wav_header_locals g').data_chunk.num_bytes = 10 := by
  obtain ⟨f', g', hs, hstream, _, hd⟩ :=
    data_chunk_counts_appended [[1, 2, 3], [-1, -2]] fopen_wb
      { buffer := fun _ => 0, buffer_i := 0, num_sample_bytes_written := 0 } rfl rfl
      (by decide) (by decide) (by decide)
  exact ⟨f', g', hs, hstream, hd⟩

end Proofs

end PataterSynth
